import Mathlib

/-!
Verification of the coalition-forming greedy list scheduler
(`src/models.py`, `src/heuristics.py`) of the task_allocation repository.

Times are modelled as rationals; requirement and skill vectors are lists of
naturals, read with `List.getD` (default 0) where Python indexes.  The two
unbounded `while` loops of the source (`find_minimal_coalition`'s set-cover
loop and `greedy_heuristic`'s main loop) are embedded with an explicit fuel
argument; both loops remove one element of a finite pool per iteration, so
fuel equal to the pool size is exact, which is proved below
(`setCoverLoop_fuel_irrel`, `greedyLoop_fuel_irrel`).
-/

namespace TaskAlloc

/-- `models.Task`: id, execution time, 2-D location, binary requirement
vector, dummy flag. -/
structure Task where
  id : Nat
  execution_time : ℚ
  location : Int × Int
  requirements : List Nat
  is_dummy : Bool
deriving DecidableEq, Repr

/-- `models.Robot`: id and binary skill vector. -/
structure Robot where
  id : Nat
  skills : List Nat
deriving DecidableEq, Repr

/-- `models.Robot.has_skills`: for every index `i` of the requirement vector,
not (`required[i] == 1` and `skills[i] == 0`). -/
def Robot.has_skills (robot : Robot) (required_skills : List Nat) : Bool :=
  (List.range required_skills.length).all fun i =>
    !(required_skills.getD i 0 == 1 && robot.skills.getD i 0 == 0)

/-- `models.ProblemInstance`: tasks, robots, travel-time matrix and the
successor-to-predecessors map (`precedence_constraints.get(id, [])` is
modelled by applying the function). -/
structure ProblemInstance where
  tasks : List Task
  robots : List Robot
  travel_times : List (List ℚ)
  precedence_constraints : Nat → List Nat

/-- `ProblemInstance.num_robots`. -/
def ProblemInstance.num_robots (p : ProblemInstance) : Nat :=
  p.robots.length

/-- `ProblemInstance.get_real_tasks`: the non-dummy tasks. -/
def ProblemInstance.get_real_tasks (p : ProblemInstance) : List Task :=
  p.tasks.filter fun t => !t.is_dummy

/-- Number of uncovered required indices a robot's skills would cover:
`len(uncovered_skills.intersection(i for i, s in enumerate(skills) if s == 1))`. -/
def coverCount (uncovered : List Nat) (r : Robot) : Nat :=
  (uncovered.filter fun i => r.skills.getD i 0 == 1).length

/-- The inner selection loop of the set cover: scan the pool, keeping the
robot with the strictly largest cover count (first wins on ties). -/
def selectBestAux (uncovered : List Nat) :
    List Robot → Option Robot → Nat → Option Robot
  | [], best, _ => best
  | r :: rest, best, bestCount =>
    if coverCount uncovered r > bestCount then
      selectBestAux uncovered rest (some r) (coverCount uncovered r)
    else
      selectBestAux uncovered rest best bestCount

/-- `best_robot` after one pass over `available_robots`
(`heuristics.py` lines 40-50). -/
def selectBest (uncovered : List Nat) (available : List Robot) : Option Robot :=
  selectBestAux uncovered available none 0

/-- The greedy set-cover loop of `find_minimal_coalition`
(`heuristics.py` lines 39-58): while uncovered skills remain, pick the best
robot, drop what it covers, remove it from the pool; `none` when no pool
robot covers anything.  One pool robot is consumed per iteration, so fuel
`available.length` is exact. -/
def setCoverLoop : Nat → List Nat → List Robot → List Robot → Option (List Robot)
  | _, [], _, coalition => some coalition
  | 0, _ :: _, _, _ => none
  | fuel + 1, i :: uncovered, available, coalition =>
    match selectBest (i :: uncovered) available with
    | none => none
    | some best =>
      setCoverLoop fuel
        ((i :: uncovered).filter fun j => !(best.skills.getD j 0 == 1))
        (available.erase best) (coalition ++ [best])

/-- `heuristics.find_minimal_coalition`: empty coalition when no bit of the
requirement vector is set; else the first single robot whose skills dominate;
else greedy set cover; `none` (Infeasible) when the cover gets stuck. -/
def find_minimal_coalition (task : Task) (robots : List Robot) :
    Option (List Robot) :=
  let required_skills := task.requirements
  if !required_skills.any (fun req => req == 1) then some []
  else
    match robots.find? (fun r => r.has_skills required_skills) with
    | some robot => some [robot]
    | none =>
      let uncovered := (List.range required_skills.length).filter
        fun i => required_skills.getD i 0 == 1
      setCoverLoop robots.length uncovered robots []

/-- Requirement index `i` is demanded by the task (`requirements[i] == 1`,
out-of-range reads 0 as in the `getD` embedding). -/
def requiredIdx (task : Task) (i : Nat) : Prop :=
  task.requirements.getD i 0 = 1

instance (task : Task) (i : Nat) : Decidable (requiredIdx task i) := by
  unfold requiredIdx; infer_instance

/-- Robot `r` covers index `i` in the set-cover sense (`skills[i] == 1`). -/
def coversIdx (r : Robot) (i : Nat) : Prop :=
  r.skills.getD i 0 = 1

instance (r : Robot) (i : Nat) : Decidable (coversIdx r i) := by
  unfold coversIdx; infer_instance

/-! ## The list scheduler (`heuristics.greedy_heuristic`) -/

/-- One per-robot schedule entry `{task, start_time, end_time}`. -/
structure SchedEntry where
  task : Nat
  start_time : ℚ
  end_time : ℚ
deriving DecidableEq, Repr

/-- The mutable scheduling state of `greedy_heuristic` (lines 81-89):
per-robot availability and location arrays, the scheduled-id set, the
finish-time map (an association list, later bindings shadowing earlier ones,
absent keys reading 0 like `dict.get(p, 0)`), and the per-robot schedules. -/
structure SchedState where
  robot_available_time : List ℚ
  robot_current_location : List Nat
  scheduled_task_ids : List Nat
  task_finish_times : List (Nat × ℚ)
  robot_schedules : List (List SchedEntry)
deriving DecidableEq, Repr

/-- `task_finish_times.get(k, 0)`. -/
def finishTimeD (m : List (Nat × ℚ)) (k : Nat) : ℚ :=
  (m.lookup k).getD 0

/-- Python `max(l, default=d)`: `d` on the empty list, otherwise the true
maximum (no clamping at `d`). -/
def maxD (d : ℚ) : List ℚ → ℚ
  | [] => d
  | x :: xs => xs.foldl max x

/-- A candidate assignment (`best_assignment` dict, lines 118-123). -/
structure Candidate where
  task : Task
  coalition : List Robot
  start_time : ℚ
  finish_time : ℚ
deriving DecidableEq, Repr

/-- Arrival time of robot `r` at the task:
`robot_available_time[r.id] + travel_times[robot_current_location[r.id]][task.id]`. -/
def arrivalTime (p : ProblemInstance) (st : SchedState) (r : Robot)
    (taskId : Nat) : ℚ :=
  st.robot_available_time.getD r.id 0 +
    (p.travel_times.getD (st.robot_current_location.getD r.id 0) []).getD taskId 0

/-- The body of the candidate-evaluation loop (lines 95-123) for one task:
`none` when a predecessor is unscheduled or when `coalition` is falsy
(`None` or the empty list); otherwise the timed candidate. -/
def evalTask (p : ProblemInstance) (st : SchedState) (task : Task) :
    Option Candidate :=
  let predecessors := p.precedence_constraints task.id
  if predecessors.all (fun q => st.scheduled_task_ids.contains q) then
    let max_pred_finish :=
      maxD 0 (predecessors.map fun q => finishTimeD st.task_finish_times q)
    match find_minimal_coalition task p.robots with
    | some (r0 :: rs) =>
      let coalition_ready_time :=
        maxD 0 ((r0 :: rs).map fun r => arrivalTime p st r task.id)
      let start_time := max coalition_ready_time max_pred_finish
      some ⟨task, r0 :: rs, start_time, start_time + task.execution_time⟩
    | _ => none
  else none

/-- Keep the candidate with the strictly smaller finish time
(`finish_time < earliest_finish_time`, line 116): first wins on ties. -/
def pickBetter : Option Candidate → Candidate → Option Candidate
  | none, c => some c
  | some b, c => if c.finish_time < b.finish_time then some c else some b

/-- One iteration of the candidate loop: evaluate the task, keep the better
candidate (tasks without a candidate leave `best_assignment` unchanged). -/
def bestStep (p : ProblemInstance) (st : SchedState) (best : Option Candidate)
    (task : Task) : Option Candidate :=
  match evalTask p st task with
  | none => best
  | some c => pickBetter best c

/-- `best_assignment` after the candidate loop over the pending tasks. -/
def findBest (p : ProblemInstance) (st : SchedState) (tasks : List Task) :
    Option Candidate :=
  tasks.foldl (bestStep p st) none

/-- State update for one coalition member (lines 132-139). -/
def commitRobot (c : Candidate) (st : SchedState) (r : Robot) : SchedState :=
  { st with
    robot_available_time := st.robot_available_time.set r.id c.finish_time
    robot_current_location := st.robot_current_location.set r.id c.task.id
    robot_schedules := st.robot_schedules.set r.id
      (st.robot_schedules.getD r.id [] ++
        [⟨c.task.id, c.start_time, c.finish_time⟩]) }

/-- Commit the winning candidate (lines 125-142): update every coalition
member, mark the task scheduled, record its finish time. -/
def commit (c : Candidate) (st : SchedState) : SchedState :=
  let st1 := c.coalition.foldl (commitRobot c) st
  { st1 with
    scheduled_task_ids := c.task.id :: st1.scheduled_task_ids
    task_finish_times := (c.task.id, c.finish_time) :: st1.task_finish_times }

/-- The main loop (lines 91-147): while tasks remain, evaluate candidates,
commit the best one and drop its task, or break when none exists.  One task
is consumed per iteration, so fuel `tasks.length` is exact. -/
def greedyLoop : Nat → ProblemInstance → List Task → SchedState →
    List Task × SchedState
  | 0, _, tasks, st => (tasks, st)
  | fuel + 1, p, tasks, st =>
    if tasks.isEmpty then (tasks, st)
    else
      match findBest p st tasks with
      | none => (tasks, st)
      | some c => greedyLoop fuel p (tasks.erase c.task) (commit c st)

/-- Initial scheduling state (lines 81-89). -/
def initState (p : ProblemInstance) : SchedState :=
  { robot_available_time := List.replicate p.num_robots 0
    robot_current_location := List.replicate p.num_robots 0
    scheduled_task_ids := [0]
    task_finish_times := [(0, 0)]
    robot_schedules := List.replicate p.num_robots [] }

/-- The result record (lines 149-156). -/
structure GreedyResult where
  makespan : ℚ
  n_tasks : Nat
  n_robots : Nat
  robot_schedules : List (List SchedEntry)
deriving DecidableEq, Repr

/-- Build the result record from a final state. -/
def mkResult (p : ProblemInstance) (st : SchedState) : GreedyResult :=
  { makespan := maxD 0 st.robot_available_time
    n_tasks := p.get_real_tasks.length
    n_robots := p.num_robots
    robot_schedules := st.robot_schedules }

/-- `heuristics.greedy_heuristic`. -/
def greedy_heuristic (p : ProblemInstance) : GreedyResult :=
  let tasks := p.get_real_tasks
  mkResult p (greedyLoop tasks.length p tasks (initState p)).2

/-- A robot roster with binary skill vectors (all `Q` entries 0 or 1). -/
def BinarySkills (robots : List Robot) : Prop :=
  ∀ r ∈ robots, ∀ s ∈ r.skills, s = 0 ∨ s = 1

instance (robots : List Robot) : Decidable (BinarySkills robots) := by
  unfold BinarySkills; infer_instance

/-- The start and finish time of a candidate for a given task and state. -/
def candStart (p : ProblemInstance) (st : SchedState) (task : Task)
    (coalition : List Robot) : ℚ :=
  max (maxD 0 (coalition.map fun r => arrivalTime p st r task.id))
    (maxD 0 ((p.precedence_constraints task.id).map fun q =>
      finishTimeD st.task_finish_times q))

/-- Concrete instance, spec Scenario A: two robots (skills `[1]`, `[0]`),
one real task requiring `[1]` with execution time 5, depot-to-task travel 2. -/
def scenATask : Task := ⟨1, 5, (0, 0), [1], false⟩

def scenAProblem : ProblemInstance :=
  { tasks := [⟨0, 0, (0, 0), [0], true⟩, scenATask, ⟨2, 0, (0, 0), [0], true⟩]
    robots := [⟨0, [1]⟩, ⟨1, [0]⟩]
    travel_times := [[0, 2, 0], [2, 0, 0], [0, 0, 0]]
    precedence_constraints := fun _ => [] }

/-- The winning candidate of Scenario A's first round. -/
def scenACand : Candidate := ⟨scenATask, [⟨0, [1]⟩], 2, 7⟩

/-- Concrete instance with a single real task whose requirement vector has
no set bit. -/
def zeroReqTask : Task := ⟨1, 5, (0, 0), [0], false⟩

def zeroReqProblem : ProblemInstance :=
  { tasks := [⟨0, 0, (0, 0), [0], true⟩, zeroReqTask, ⟨2, 0, (0, 0), [0], true⟩]
    robots := [⟨0, [1]⟩]
    travel_times := [[0, 0, 0], [0, 0, 0], [0, 0, 0]]
    precedence_constraints := fun _ => [] }

/-- Concrete instance with no robots at all. -/
def noRobotsProblem : ProblemInstance :=
  { tasks := [⟨0, 0, (0, 0), [0], true⟩, ⟨1, 5, (0, 0), [1], false⟩,
      ⟨2, 0, (0, 0), [0], true⟩]
    robots := []
    travel_times := [[0, 0, 0], [0, 0, 0], [0, 0, 0]]
    precedence_constraints := fun _ => [] }

/-- Concrete roster for the coalition-finder claims: task requiring `[1,1]`,
two complementary single-skill robots. -/
def wTask2 : Task := ⟨1, 5, (0, 0), [1, 1], false⟩

def wRobots2 : List Robot := [⟨0, [1, 0]⟩, ⟨1, [0, 1]⟩]

/-- Concrete roster for the dominating-robot claim: requirement `[1,0]`;
robot 0 lacks skill 0, robot 1 dominates. -/
def wTask7 : Task := ⟨1, 3, (0, 0), [1, 0], false⟩

def wRobots7 : List Robot := [⟨0, [0, 1]⟩, ⟨1, [1, 1]⟩]

/-- All execution times and travel-time entries of the instance are
non-negative. -/
def NonnegTimes (p : ProblemInstance) : Prop :=
  (∀ t ∈ p.tasks, 0 ≤ t.execution_time) ∧
  ∀ row ∈ p.travel_times, ∀ x ∈ row, 0 ≤ x

/-- Every scheduled id has a recorded finish time. -/
def Recorded (st : SchedState) : Prop :=
  ∀ q ∈ st.scheduled_task_ids, (st.task_finish_times.lookup q).isSome = true

/-- End times of robot `n`'s schedule. -/
def endsOf (st : SchedState) (n : Nat) : List ℚ :=
  (st.robot_schedules.getD n []).map SchedEntry.end_time

/-- Coherence of the availability array with the accumulated schedules:
arrays keep the robot count as length, each robot's availability is the
maximum end time of its committed entries (0 when idle), and end times are
non-negative. -/
structure AvailInv (p : ProblemInstance) (st : SchedState) : Prop where
  len_avail : st.robot_available_time.length = p.num_robots
  len_sched : st.robot_schedules.length = p.num_robots
  avail_eq : ∀ n, st.robot_available_time.getD n 0 = maxD 0 (endsOf st n)
  ends_nonneg : ∀ n, ∀ e ∈ st.robot_schedules.getD n [], 0 ≤ e.end_time

/-- Chronological well-formedness of the accumulated schedules: every entry
comes from a task of the instance with `end = start + execution_time`, and
each robot's entries are chronologically ordered without overlap. -/
structure ChronoInv (p : ProblemInstance) (st : SchedState) : Prop where
  base : AvailInv p st
  entry_ok : ∀ n, ∀ e ∈ st.robot_schedules.getD n [],
    ∃ t ∈ p.tasks, e.task = t.id ∧
      e.end_time = e.start_time + t.execution_time ∧
      0 ≤ e.start_time ∧ e.start_time ≤ e.end_time
  chain : ∀ n, List.Chain' (fun a b => a.end_time ≤ b.start_time)
    (st.robot_schedules.getD n [])

/-- The final scheduling state of a run of `greedy_heuristic`. -/
def finalState (p : ProblemInstance) : SchedState :=
  (greedyLoop p.get_real_tasks.length p p.get_real_tasks (initState p)).2

/-! ## Helper lemmas about `maxD` -/

theorem le_foldl_max_init : ∀ (l : List ℚ) (a : ℚ), a ≤ l.foldl max a := by
  intro l
  induction l with
  | nil => intro a; simp
  | cons x xs ih =>
    intro a
    calc a ≤ max a x := le_max_left a x
    _ ≤ xs.foldl max (max a x) := ih (max a x)
    _ = (x :: xs).foldl max a := by simp [List.foldl_cons]

theorem le_foldl_max_mem : ∀ (l : List ℚ) (x : ℚ), x ∈ l → ∀ a : ℚ, x ≤ l.foldl max a := by
  intro l
  induction l with
  | nil => intro x hx; cases hx
  | cons y ys ih =>
    intro x hx a
    rcases List.mem_cons.mp hx with h | h
    · subst h
      calc x ≤ max a x := le_max_right a x
      _ ≤ ys.foldl max (max a x) := le_foldl_max_init ys (max a x)
      _ = (x :: ys).foldl max a := by simp [List.foldl_cons]
    · simpa [List.foldl_cons] using ih x h (max a y)

theorem foldl_max_le_of : ∀ (l : List ℚ) (a b : ℚ), a ≤ b → (∀ x ∈ l, x ≤ b) →
    l.foldl max a ≤ b := by
  intro l
  induction l with
  | nil => intro a b ha _; simpa using ha
  | cons x xs ih =>
    intro a b ha h
    simp only [List.foldl_cons]
    exact ih (max a x) b (max_le ha (h x (List.mem_cons_self x xs)))
      (fun y hy => h y (List.mem_cons_of_mem x hy))

theorem foldl_max_mem_or : ∀ (l : List ℚ) (a : ℚ),
    l.foldl max a = a ∨ l.foldl max a ∈ l := by
  intro l
  induction l with
  | nil => intro a; left; rfl
  | cons x xs ih =>
    intro a
    simp only [List.foldl_cons]
    rcases ih (max a x) with h | h
    · rw [h]
      rcases max_choice a x with h' | h'
      · left; exact h'
      · right; rw [h']; exact List.mem_cons_self x xs
    · right; exact List.mem_cons_of_mem x h

theorem le_maxD_of_mem {x : ℚ} {l : List ℚ} (hx : x ∈ l) (d : ℚ) : x ≤ maxD d l := by
  cases l with
  | nil => cases hx
  | cons y ys =>
    rcases List.mem_cons.mp hx with h | h
    · subst h; exact le_foldl_max_init ys x
    · exact le_foldl_max_mem ys x h y

theorem maxD_le {d b : ℚ} {l : List ℚ} (hd : d ≤ b) (h : ∀ x ∈ l, x ≤ b) :
    maxD d l ≤ b := by
  cases l with
  | nil => exact hd
  | cons y ys =>
    exact foldl_max_le_of ys y b (h y (List.mem_cons_self y ys))
      (fun x hx => h x (List.mem_cons_of_mem y hx))

theorem maxD_mem_or (d : ℚ) (l : List ℚ) : maxD d l = d ∨ maxD d l ∈ l := by
  cases l with
  | nil => left; rfl
  | cons y ys =>
    rcases foldl_max_mem_or ys y with h | h
    · right; rw [show maxD d (y :: ys) = ys.foldl max y from rfl, h]
      exact List.mem_cons_self y ys
    · right; exact List.mem_cons_of_mem y h

theorem maxD_nonneg {l : List ℚ} (h : ∀ x ∈ l, 0 ≤ x) : 0 ≤ maxD 0 l := by
  rcases maxD_mem_or 0 l with h' | h'
  · rw [h']
  · exact h _ h'

theorem maxD_append_eq {d y : ℚ} {l : List ℚ} (h : maxD d l ≤ y) :
    maxD d (l ++ [y]) = y := by
  cases l with
  | nil => rfl
  | cons x xs =>
    show (xs ++ [y]).foldl max x = y
    rw [List.foldl_append]
    exact max_eq_right (by simpa using h)

/-! ## Helper lemmas about the coalition finder -/

theorem find?_first {α : Type} (p : α → Bool) :
    ∀ (l : List α) (a : α), l.find? p = some a →
      ∃ l1 l2, l = l1 ++ a :: l2 ∧ p a = true ∧ ∀ x ∈ l1, p x = false := by
  intro l
  induction l with
  | nil => intro a h; simp [List.find?] at h
  | cons y ys ih =>
    intro a h
    by_cases hy : p y = true
    · rw [List.find?_cons_of_pos _ hy] at h
      obtain rfl : y = a := by injection h
      exact ⟨[], ys, rfl, hy, by simp⟩
    · rw [List.find?_cons_of_neg _ hy] at h
      obtain ⟨l1, l2, hsplit, hpa, hl1⟩ := ih a h
      refine ⟨y :: l1, l2, by rw [hsplit]; rfl, hpa, ?_⟩
      intro x hx
      rcases List.mem_cons.mp hx with h' | h'
      · subst h'; simpa using hy
      · exact hl1 x h'

theorem selectBestAux_some_mem (u : List Nat) :
    ∀ (l : List Robot) (best : Option Robot) (cnt : Nat) (r : Robot),
      selectBestAux u l best cnt = some r → best = some r ∨ r ∈ l := by
  intro l
  induction l with
  | nil => intro best cnt r h; left; exact h
  | cons x xs ih =>
    intro best cnt r h
    rw [selectBestAux] at h
    split at h
    · rcases ih _ _ _ h with h' | h'
      · right
        obtain rfl : x = r := by injection h'
        exact List.mem_cons_self x xs
      · right; exact List.mem_cons_of_mem x h'
    · rcases ih _ _ _ h with h' | h'
      · left; exact h'
      · right; exact List.mem_cons_of_mem x h'

theorem selectBestAux_some_pos (u : List Nat) :
    ∀ (l : List Robot) (best : Option Robot) (cnt : Nat)
      (hb : ∀ b, best = some b → 0 < coverCount u b) (r : Robot),
      selectBestAux u l best cnt = some r → 0 < coverCount u r := by
  intro l
  induction l with
  | nil => intro best cnt hb r h; exact hb r h
  | cons x xs ih =>
    intro best cnt hb r h
    rw [selectBestAux] at h
    split at h
    · rename_i hgt
      exact ih _ _ (fun b hb' => by
        obtain rfl : x = b := by injection hb'
        exact Nat.lt_of_le_of_lt (Nat.zero_le _) hgt) r h
    · exact ih _ _ hb r h

theorem selectBestAux_none (u : List Nat) :
    ∀ (l : List Robot) (best : Option Robot) (cnt : Nat),
      selectBestAux u l best cnt = none →
        best = none ∧ ∀ r ∈ l, coverCount u r ≤ cnt := by
  intro l
  induction l with
  | nil => intro best cnt h; exact ⟨h, by simp⟩
  | cons x xs ih =>
    intro best cnt h
    rw [selectBestAux] at h
    split at h
    · obtain ⟨hb, _⟩ := ih _ _ h; cases hb
    · rename_i hle
      obtain ⟨hb, hrest⟩ := ih _ _ h
      refine ⟨hb, ?_⟩
      intro r hr
      rcases List.mem_cons.mp hr with h' | h'
      · subst h'; exact Nat.le_of_not_lt hle
      · exact hrest r h'

theorem selectBest_some_mem {u : List Nat} {a : List Robot} {r : Robot}
    (h : selectBest u a = some r) : r ∈ a := by
  rcases selectBestAux_some_mem u a none 0 r h with h' | h'
  · cases h'
  · exact h'

theorem selectBest_some_pos {u : List Nat} {a : List Robot} {r : Robot}
    (h : selectBest u a = some r) : 0 < coverCount u r :=
  selectBestAux_some_pos u a none 0 (fun b hb => by cases hb) r h

theorem selectBest_none {u : List Nat} {a : List Robot}
    (h : selectBest u a = none) : ∀ r ∈ a, coverCount u r = 0 := by
  intro r hr
  exact Nat.le_zero.mp ((selectBestAux_none u a none 0 h).2 r hr)

theorem setCoverLoop_some_covers :
    ∀ (fuel : Nat) (u : List Nat) (a c out : List Robot),
      setCoverLoop fuel u a c = some out →
        (∀ x ∈ c, x ∈ out) ∧ ∀ i ∈ u, ∃ r ∈ out, coversIdx r i := by
  intro fuel
  induction fuel with
  | zero =>
    intro u a c out h
    cases u with
    | nil =>
      obtain rfl : c = out := by injection h
      exact ⟨fun x hx => hx, by simp⟩
    | cons i u' => cases h
  | succ fuel ih =>
    intro u a c out h
    cases u with
    | nil =>
      obtain rfl : c = out := by injection h
      exact ⟨fun x hx => hx, by simp⟩
    | cons i u' =>
      rw [setCoverLoop] at h
      cases hsel : selectBest (i :: u') a with
      | none => rw [hsel] at h; cases h
      | some best =>
        rw [hsel] at h
        obtain ⟨hsub, hcov⟩ := ih _ _ _ _ h
        have hbest : best ∈ out := hsub best (by simp)
        refine ⟨fun x hx => hsub x (List.mem_append_left _ hx), ?_⟩
        intro j hj
        by_cases hc : best.skills.getD j 0 = 1
        · exact ⟨best, hbest, hc⟩
        · refine hcov j (List.mem_filter.mpr ⟨hj, ?_⟩)
          simpa using hc

theorem setCoverLoop_some_sub :
    ∀ (fuel : Nat) (u : List Nat) (a c out : List Robot),
      setCoverLoop fuel u a c = some out → ∀ x ∈ out, x ∈ c ∨ x ∈ a := by
  intro fuel
  induction fuel with
  | zero =>
    intro u a c out h x hx
    cases u with
    | nil =>
      obtain rfl : c = out := by injection h
      exact Or.inl hx
    | cons i u' => cases h
  | succ fuel ih =>
    intro u a c out h x hx
    cases u with
    | nil =>
      obtain rfl : c = out := by injection h
      exact Or.inl hx
    | cons i u' =>
      rw [setCoverLoop] at h
      cases hsel : selectBest (i :: u') a with
      | none => rw [hsel] at h; cases h
      | some best =>
        rw [hsel] at h
        rcases ih _ _ _ _ h x hx with h' | h'
        · rcases List.mem_append.mp h' with h'' | h''
          · exact Or.inl h''
          · right
            obtain rfl : x = best := by simpa using h''
            exact selectBest_some_mem hsel
        · exact Or.inr (List.mem_of_mem_erase h')

theorem setCoverLoop_stuck :
    ∀ (fuel : Nat) (u : List Nat) (a c : List Robot) (i : Nat),
      i ∈ u → (∀ r ∈ a, ¬ coversIdx r i) → a.length ≤ fuel →
        setCoverLoop fuel u a c = none := by
  intro fuel
  induction fuel with
  | zero =>
    intro u a c i hi _ _
    cases u with
    | nil => cases hi
    | cons j u' => rfl
  | succ fuel ih =>
    intro u a c i hi hnc hlen
    cases u with
    | nil => cases hi
    | cons j u' =>
      rw [setCoverLoop]
      cases hsel : selectBest (j :: u') a with
      | none => rfl
      | some best =>
        have hbesta : best ∈ a := selectBest_some_mem hsel
        refine ih _ _ _ i ?_ ?_ ?_
        · refine List.mem_filter.mpr ⟨hi, ?_⟩
          have : ¬ coversIdx best i := hnc best hbesta
          simpa [coversIdx] using this
        · exact fun r hr => hnc r (List.mem_of_mem_erase hr)
        · rw [List.length_erase_of_mem hbesta]
          have : 1 ≤ a.length := List.length_pos.mpr (List.ne_nil_of_mem hbesta)
          omega

theorem coverCount_pos_iff {u : List Nat} {r : Robot} :
    0 < coverCount u r ↔ ∃ i ∈ u, coversIdx r i := by
  unfold coverCount coversIdx
  rw [List.length_pos_iff_exists_mem]
  constructor
  · rintro ⟨i, hi⟩
    obtain ⟨hiu, hcov⟩ := List.mem_filter.mp hi
    exact ⟨i, hiu, by simpa using hcov⟩
  · rintro ⟨i, hiu, hcov⟩
    exact ⟨i, List.mem_filter.mpr ⟨hiu, by simpa using hcov⟩⟩

theorem setCoverLoop_success :
    ∀ (fuel : Nat) (u : List Nat) (a c : List Robot),
      (∀ i ∈ u, ∃ r ∈ a, coversIdx r i) → a.length ≤ fuel →
        ∃ out, setCoverLoop fuel u a c = some out := by
  intro fuel
  induction fuel with
  | zero =>
    intro u a c h hlen
    cases u with
    | nil => exact ⟨c, rfl⟩
    | cons i u' =>
      obtain ⟨r, hra, _⟩ := h i (List.mem_cons_self i u')
      have : 1 ≤ a.length := List.length_pos.mpr (List.ne_nil_of_mem hra)
      omega
  | succ fuel ih =>
    intro u a c h hlen
    cases u with
    | nil => exact ⟨c, rfl⟩
    | cons i u' =>
      rw [setCoverLoop]
      cases hsel : selectBest (i :: u') a with
      | none =>
        obtain ⟨r, hra, hcov⟩ := h i (List.mem_cons_self i u')
        have hpos : 0 < coverCount (i :: u') r :=
          coverCount_pos_iff.mpr ⟨i, List.mem_cons_self i u', hcov⟩
        rw [selectBest_none hsel r hra] at hpos
        cases hpos
      | some best =>
        have hbesta : best ∈ a := selectBest_some_mem hsel
        refine ih _ _ _ ?_ ?_
        · intro j hj
          obtain ⟨hju, hjnc⟩ := List.mem_filter.mp hj
          obtain ⟨r, hra, hrc⟩ := h j hju
          have hrb : r ≠ best := by
            intro hrb
            subst hrb
            simp [coversIdx] at hjnc
            exact hjnc (by simpa [coversIdx] using hrc)
          exact ⟨r, (List.mem_erase_of_ne hrb).mpr hra, hrc⟩
        · rw [List.length_erase_of_mem hbesta]
          have : 1 ≤ a.length := List.length_pos.mpr (List.ne_nil_of_mem hbesta)
          omega

theorem requiredIdx_lt {t : Task} {i : Nat} (h : requiredIdx t i) :
    i < t.requirements.length := by
  by_contra h'
  rw [requiredIdx, List.getD_eq_default _ _ (Nat.le_of_not_lt h')] at h
  cases h

theorem skills_getD_binary {r : Robot} (hb : ∀ s ∈ r.skills, s = 0 ∨ s = 1)
    (i : Nat) : r.skills.getD i 0 = 0 ∨ r.skills.getD i 0 = 1 := by
  by_cases h : i < r.skills.length
  · rw [List.getD_eq_getElem _ _ h]
    exact hb _ (List.getElem_mem h)
  · rw [List.getD_eq_default _ _ (Nat.le_of_not_lt h)]
    exact Or.inl rfl

theorem any_req_iff {t : Task} :
    t.requirements.any (fun req => req == 1) = true ↔ ∃ i, requiredIdx t i := by
  rw [List.any_eq_true]
  constructor
  · rintro ⟨x, hx, hx1⟩
    obtain ⟨i, hi, rfl⟩ := List.mem_iff_getElem.mp hx
    refine ⟨i, ?_⟩
    rw [requiredIdx, List.getD_eq_getElem _ _ hi]
    simpa using hx1
  · rintro ⟨i, hi⟩
    have hlt := requiredIdx_lt hi
    rw [requiredIdx, List.getD_eq_getElem _ _ hlt] at hi
    exact ⟨1, hi ▸ List.getElem_mem hlt, by simp⟩

theorem has_skills_iff {r : Robot} {t : Task}
    (hb : ∀ s ∈ r.skills, s = 0 ∨ s = 1) :
    r.has_skills t.requirements = true ↔
      ∀ i, requiredIdx t i → coversIdx r i := by
  rw [Robot.has_skills, List.all_eq_true]
  constructor
  · intro h i hi
    have hlt := requiredIdx_lt hi
    have h2 := h i (List.mem_range.mpr hlt)
    rw [requiredIdx] at hi
    rw [hi] at h2
    have h3 : (r.skills.getD i 0 == 0) = false := by
      by_contra hx
      rw [Bool.not_eq_false] at hx
      rw [hx] at h2
      simp at h2
    rcases skills_getD_binary hb i with h0 | h1
    · rw [h0] at h3; simp at h3
    · exact h1
  · intro h i _
    by_cases hreq : requiredIdx t i
    · have hcov := h i hreq
      rw [coversIdx] at hcov
      rw [hcov]
      simp
    · rw [requiredIdx] at hreq
      have hne : (t.requirements.getD i 0 == 1) = false := by
        by_contra hx
        rw [Bool.not_eq_false, beq_iff_eq] at hx
        exact hreq hx
      rw [hne]
      simp

theorem fmc_sub {t : Task} {robots out : List Robot}
    (h : find_minimal_coalition t robots = some out) : ∀ x ∈ out, x ∈ robots := by
  rw [find_minimal_coalition] at h
  split at h
  · obtain rfl : ([] : List Robot) = out := by injection h
    intro x hx; cases hx
  · cases hfind : robots.find? (fun r => r.has_skills t.requirements) with
    | some robot =>
      rw [hfind] at h
      obtain rfl : [robot] = out := by injection h
      intro x hx
      obtain rfl : x = robot := by simpa using hx
      exact List.mem_of_find?_eq_some hfind
    | none =>
      rw [hfind] at h
      intro x hx
      rcases setCoverLoop_some_sub _ _ _ _ _ h x hx with h' | h'
      · cases h'
      · exact h'

theorem fmc_covers {t : Task} {robots out : List Robot}
    (hb : BinarySkills robots)
    (h : find_minimal_coalition t robots = some out) :
    ∀ i, requiredIdx t i → ∃ r ∈ out, coversIdx r i := by
  rw [find_minimal_coalition] at h
  split at h
  · rename_i hany
    intro i hi
    rw [Bool.not_eq_eq_eq_not, Bool.not_true, ← Bool.not_eq_true] at hany
    exact absurd (any_req_iff.mpr ⟨i, hi⟩) hany
  · cases hfind : robots.find? (fun r => r.has_skills t.requirements) with
    | some robot =>
      rw [hfind] at h
      obtain rfl : [robot] = out := by injection h
      intro i hi
      have hmem := List.mem_of_find?_eq_some hfind
      have hs := List.find?_some hfind
      exact ⟨robot, by simp,
        (has_skills_iff (hb robot hmem)).mp hs i hi⟩
    | none =>
      rw [hfind] at h
      intro i hi
      refine (setCoverLoop_some_covers _ _ _ _ _ h).2 i ?_
      refine List.mem_filter.mpr ⟨List.mem_range.mpr (requiredIdx_lt hi), ?_⟩
      rw [requiredIdx] at hi
      show (t.requirements.getD i 0 == 1) = true
      rw [hi]
      rfl

theorem fmc_none_iff {t : Task} {robots : List Robot}
    (hb : BinarySkills robots) :
    find_minimal_coalition t robots = none ↔
      ∃ i, requiredIdx t i ∧ ∀ r ∈ robots, ¬ coversIdx r i := by
  constructor
  · intro h
    by_contra hno
    push_neg at hno
    have hcov : ∀ i, requiredIdx t i → ∃ r ∈ robots, coversIdx r i := by
      intro i hi
      obtain ⟨r, hr, hrc⟩ := hno i hi
      exact ⟨r, hr, hrc⟩
    rw [find_minimal_coalition] at h
    split at h
    · cases h
    · cases hfind : robots.find? (fun r => r.has_skills t.requirements) with
      | some robot => rw [hfind] at h; cases h
      | none =>
        rw [hfind] at h
        obtain ⟨out, hout⟩ := setCoverLoop_success robots.length
          ((List.range t.requirements.length).filter
            fun i => t.requirements.getD i 0 == 1) robots []
          (by
            intro i hiu
            obtain ⟨_, hpred⟩ := List.mem_filter.mp hiu
            refine hcov i ?_
            rw [requiredIdx]
            exact beq_iff_eq.mp hpred)
          (Nat.le_refl _)
        rw [hout] at h
        cases h
  · rintro ⟨i, hi, hnc⟩
    rw [find_minimal_coalition]
    split
    · rename_i hany
      rw [Bool.not_eq_eq_eq_not, Bool.not_true, ← Bool.not_eq_true] at hany
      exact absurd (any_req_iff.mpr ⟨i, hi⟩) hany
    · cases hfind : robots.find? (fun r => r.has_skills t.requirements) with
      | some robot =>
        have hmem := List.mem_of_find?_eq_some hfind
        have hs := List.find?_some hfind
        exact absurd ((has_skills_iff (hb robot hmem)).mp hs i hi) (hnc robot hmem)
      | none =>
        refine setCoverLoop_stuck _ _ _ _ i ?_ hnc (Nat.le_refl _)
        refine List.mem_filter.mpr ⟨List.mem_range.mpr (requiredIdx_lt hi), ?_⟩
        rw [requiredIdx] at hi
        show (t.requirements.getD i 0 == 1) = true
        rw [hi]
        rfl

/-! ## Helper lemmas about the candidate loop -/

theorem evalTask_some {p : ProblemInstance} {st : SchedState} {task : Task}
    {c : Candidate} (h : evalTask p st task = some c) :
    ((p.precedence_constraints task.id).all
        (fun q => st.scheduled_task_ids.contains q)) = true ∧
    ∃ r0 rs, find_minimal_coalition task p.robots = some (r0 :: rs) ∧
      c = ⟨task, r0 :: rs, candStart p st task (r0 :: rs),
        candStart p st task (r0 :: rs) + task.execution_time⟩ := by
  rw [evalTask] at h
  split at h
  · rename_i hall
    cases hfmc : find_minimal_coalition task p.robots with
    | none => rw [hfmc] at h; cases h
    | some l =>
      cases l with
      | nil => rw [hfmc] at h; cases h
      | cons r0 rs =>
        rw [hfmc] at h
        refine ⟨hall, r0, rs, rfl, ?_⟩
        have h2 := h.symm
        injection h2
  · cases h

theorem evalTask_task {p : ProblemInstance} {st : SchedState} {task : Task}
    {c : Candidate} (h : evalTask p st task = some c) : c.task = task := by
  obtain ⟨-, r0, rs, -, rfl⟩ := evalTask_some h
  rfl

theorem foldl_bestStep_none (p : ProblemInstance) (st : SchedState) :
    ∀ (tasks : List Task) (acc : Option Candidate),
      tasks.foldl (bestStep p st) acc = none →
        acc = none ∧ ∀ t ∈ tasks, evalTask p st t = none := by
  intro tasks
  induction tasks with
  | nil => intro acc h; exact ⟨h, by simp⟩
  | cons t ts ih =>
    intro acc h
    rw [List.foldl_cons] at h
    obtain ⟨hstep, hts⟩ := ih _ h
    have ht : evalTask p st t = none ∧ acc = none := by
      rw [bestStep] at hstep
      cases he : evalTask p st t with
      | none => rw [he] at hstep; exact ⟨rfl, hstep⟩
      | some c =>
        rw [he] at hstep
        cases acc with
        | none => simp only [pickBetter] at hstep; cases hstep
        | some b => simp only [pickBetter] at hstep; split at hstep <;> cases hstep
    refine ⟨ht.2, ?_⟩
    intro x hx
    rcases List.mem_cons.mp hx with h' | h'
    · subst h'; exact ht.1
    · exact hts x h'

theorem foldl_bestStep_some (p : ProblemInstance) (st : SchedState) :
    ∀ (tasks : List Task) (acc : Option Candidate) (c : Candidate),
      tasks.foldl (bestStep p st) acc = some c →
        (acc = some c ∧ ∀ t ∈ tasks, ∀ c', evalTask p st t = some c' →
            c.finish_time ≤ c'.finish_time) ∨
        (∃ l1 l2, tasks = l1 ++ c.task :: l2 ∧ evalTask p st c.task = some c ∧
          (∀ b, acc = some b → c.finish_time < b.finish_time) ∧
          (∀ t ∈ l1, ∀ c', evalTask p st t = some c' →
            c.finish_time < c'.finish_time) ∧
          (∀ t ∈ l2, ∀ c', evalTask p st t = some c' →
            c.finish_time ≤ c'.finish_time)) := by
  intro tasks
  induction tasks with
  | nil =>
    intro acc c h
    left
    exact ⟨h, by simp⟩
  | cons t ts ih =>
    intro acc c h
    rw [List.foldl_cons] at h
    rcases ih _ _ h with ⟨hacc, hall⟩ | ⟨l1, l2, hsplit, heval, hacc, hl1, hl2⟩
    · -- the final best came through the step unchanged-or-kept
      rw [bestStep] at hacc
      cases he : evalTask p st t with
      | none =>
        rw [he] at hacc
        left
        refine ⟨hacc, ?_⟩
        intro x hx c' hc'
        rcases List.mem_cons.mp hx with h' | h'
        · subst h'; rw [he] at hc'; cases hc'
        · exact hall x h' c' hc'
      | some c0 =>
        rw [he] at hacc
        cases acc with
        | none =>
          simp only [pickBetter] at hacc
          -- first candidate of the scan: the pivot is `t` itself
          obtain rfl : c0 = c := by injection hacc
          right
          refine ⟨[], ts, ?_, ?_, ?_, ?_, ?_⟩
          · rw [evalTask_task he]; rfl
          · rw [evalTask_task he]; exact he
          · intro b hb; cases hb
          · intro x hx; cases hx
          · exact hall
        | some b =>
          simp only [pickBetter] at hacc
          split at hacc
          · -- c0 strictly better than the accumulated b: pivot is `t`
            rename_i hlt
            obtain rfl : c0 = c := by injection hacc
            right
            refine ⟨[], ts, ?_, ?_, ?_, ?_, ?_⟩
            · rw [evalTask_task he]; rfl
            · rw [evalTask_task he]; exact he
            · intro b' hb'
              obtain rfl : b = b' := by injection hb'
              exact hlt
            · intro x hx; cases hx
            · exact hall
          · -- b kept: the final best is the accumulator
            rename_i hnlt
            obtain rfl : b = c := by injection hacc
            left
            refine ⟨rfl, ?_⟩
            intro x hx c' hc'
            rcases List.mem_cons.mp hx with h' | h'
            · subst h'
              rw [he] at hc'
              obtain rfl : c0 = c' := by injection hc'
              exact le_of_not_lt hnlt
            · exact hall x h' c' hc'
    · -- the pivot lies in `ts`
      right
      refine ⟨t :: l1, l2, by rw [hsplit]; rfl, heval, ?_, ?_, hl2⟩
      · intro b hb
        subst hb
        rw [bestStep] at hacc
        cases he : evalTask p st t with
        | none =>
          rw [he] at hacc
          exact hacc b rfl
        | some c0 =>
          rw [he] at hacc
          simp only [pickBetter] at hacc
          split at hacc
          · rename_i hlt
            exact lt_trans (hacc c0 rfl) hlt
          · exact hacc b rfl
      · intro x hx c' hc'
        rcases List.mem_cons.mp hx with h' | h'
        · subst h'
          rw [bestStep, hc'] at hacc
          cases acc with
          | none =>
            simp only [pickBetter] at hacc
            exact hacc c' rfl
          | some b =>
            simp only [pickBetter] at hacc
            split at hacc
            · exact hacc c' rfl
            · rename_i hnlt
              exact lt_of_lt_of_le (hacc b rfl) (le_of_not_lt hnlt)
        · exact hl1 x h' c' hc'

theorem findBest_split {p : ProblemInstance} {st : SchedState}
    {tasks : List Task} {c : Candidate} (h : findBest p st tasks = some c) :
    ∃ l1 l2, tasks = l1 ++ c.task :: l2 ∧ evalTask p st c.task = some c ∧
      (∀ t ∈ l1, ∀ c', evalTask p st t = some c' →
        c.finish_time < c'.finish_time) ∧
      (∀ t ∈ l2, ∀ c', evalTask p st t = some c' →
        c.finish_time ≤ c'.finish_time) := by
  rcases foldl_bestStep_some p st tasks none c h with ⟨hacc, -⟩ | h'
  · cases hacc
  · obtain ⟨l1, l2, hsplit, heval, -, hl1, hl2⟩ := h'
    exact ⟨l1, l2, hsplit, heval, hl1, hl2⟩

theorem findBest_mem {p : ProblemInstance} {st : SchedState}
    {tasks : List Task} {c : Candidate} (h : findBest p st tasks = some c) :
    c.task ∈ tasks := by
  obtain ⟨l1, l2, hsplit, -, -, -⟩ := findBest_split h
  rw [hsplit]
  exact List.mem_append_right _ (List.mem_cons_self _ _)

theorem findBest_eval {p : ProblemInstance} {st : SchedState}
    {tasks : List Task} {c : Candidate} (h : findBest p st tasks = some c) :
    evalTask p st c.task = some c :=
  (findBest_split h).choose_spec.choose_spec.2.1

theorem findBest_min {p : ProblemInstance} {st : SchedState}
    {tasks : List Task} {c : Candidate} (h : findBest p st tasks = some c) :
    ∀ t ∈ tasks, ∀ c', evalTask p st t = some c' →
      c.finish_time ≤ c'.finish_time := by
  obtain ⟨l1, l2, hsplit, heval, hl1, hl2⟩ := findBest_split h
  intro t ht c' hc'
  rw [hsplit] at ht
  rcases List.mem_append.mp ht with h' | h'
  · exact le_of_lt (hl1 t h' c' hc')
  · rcases List.mem_cons.mp h' with h'' | h''
    · subst h''
      rw [heval] at hc'
      obtain rfl : c = c' := by injection hc'
      exact le_refl _
    · exact hl2 t h'' c' hc'

theorem findBest_none {p : ProblemInstance} {st : SchedState}
    {tasks : List Task} (h : findBest p st tasks = none) :
    ∀ t ∈ tasks, evalTask p st t = none :=
  (foldl_bestStep_none p st tasks none h).2

/-! ## Fuel is irrelevant beyond the pool size -/

theorem selectBest_nil (u : List Nat) : selectBest u [] = none := rfl

theorem setCoverLoop_fuel_irrel :
    ∀ (fuel fuel' : Nat) (u : List Nat) (a c : List Robot),
      a.length ≤ fuel → a.length ≤ fuel' →
        setCoverLoop fuel u a c = setCoverLoop fuel' u a c := by
  intro fuel
  induction fuel with
  | zero =>
    intro fuel' u a c hf hf'
    have ha : a = [] := List.length_eq_zero.mp (Nat.le_zero.mp hf)
    subst ha
    cases u with
    | nil => cases fuel' <;> rfl
    | cons i u' =>
      cases fuel' with
      | zero => rfl
      | succ fuel' =>
        show none = setCoverLoop (fuel' + 1) (i :: u') [] c
        rw [setCoverLoop, selectBest_nil]
  | succ fuel ih =>
    intro fuel' u a c hf hf'
    cases fuel' with
    | zero =>
      have ha : a = [] := List.length_eq_zero.mp (Nat.le_zero.mp hf')
      subst ha
      cases u with
      | nil => rfl
      | cons i u' =>
        show setCoverLoop (fuel + 1) (i :: u') [] c = none
        rw [setCoverLoop, selectBest_nil]
    | succ fuel' =>
      cases u with
      | nil => rfl
      | cons i u' =>
        rw [setCoverLoop, setCoverLoop]
        cases hsel : selectBest (i :: u') a with
        | none => rfl
        | some best =>
          have hmem : best ∈ a := selectBest_some_mem hsel
          have hlen : (a.erase best).length = a.length - 1 :=
            List.length_erase_of_mem hmem
          have hpos : 1 ≤ a.length :=
            List.length_pos.mpr (List.ne_nil_of_mem hmem)
          exact ih fuel' _ _ _ (by omega) (by omega)

theorem greedyLoop_fuel_irrel :
    ∀ (fuel fuel' : Nat) (p : ProblemInstance) (tasks : List Task)
      (st : SchedState), tasks.length ≤ fuel → tasks.length ≤ fuel' →
        greedyLoop fuel p tasks st = greedyLoop fuel' p tasks st := by
  intro fuel
  induction fuel with
  | zero =>
    intro fuel' p tasks st hf hf'
    have ht : tasks = [] := List.length_eq_zero.mp (Nat.le_zero.mp hf)
    subst ht
    cases fuel' with
    | zero => rfl
    | succ fuel' => rw [greedyLoop]; rfl
  | succ fuel ih =>
    intro fuel' p tasks st hf hf'
    cases fuel' with
    | zero =>
      have ht : tasks = [] := List.length_eq_zero.mp (Nat.le_zero.mp hf')
      subst ht
      rw [greedyLoop]
      rfl
    | succ fuel' =>
      rw [greedyLoop, greedyLoop]
      cases htasks : tasks.isEmpty with
      | true => rfl
      | false =>
        simp only [Bool.false_eq_true, if_false]
        cases hbest : findBest p st tasks with
        | none => rfl
        | some c =>
          have hmem : c.task ∈ tasks := findBest_mem hbest
          have hlen : (tasks.erase c.task).length = tasks.length - 1 :=
            List.length_erase_of_mem hmem
          have hpos : 1 ≤ tasks.length :=
            List.length_pos.mpr (List.ne_nil_of_mem hmem)
          exact ih fuel' p _ _ (by omega) (by omega)

theorem greedyLoop_stall {p : ProblemInstance} {tasks : List Task}
    {st : SchedState} (fuel : Nat) (hnone : findBest p st tasks = none) :
    greedyLoop fuel p tasks st = (tasks, st) := by
  cases fuel with
  | zero => rfl
  | succ fuel =>
    rw [greedyLoop]
    cases htasks : tasks.isEmpty with
    | true => rfl
    | false =>
      simp only [Bool.false_eq_true, if_false, hnone]

/-! ## Helper lemmas about `commit` -/

theorem getD_set_self {α : Type} {l : List α} {n : Nat} {a d : α}
    (h : n < l.length) : (l.set n a).getD n d = a := by
  rw [List.getD_eq_getElem _ _ (by simpa using h)]
  simp [List.getElem_set]

theorem getD_set_ne {α : Type} {l : List α} {n m : Nat} {a d : α}
    (h : n ≠ m) : (l.set m a).getD n d = l.getD n d := by
  simp [List.getD_eq_getElem?_getD, List.getElem?_set_ne (Ne.symm h)]

theorem commitRobot_fields (c : Candidate) (st : SchedState) (r : Robot) :
    (commitRobot c st r).scheduled_task_ids = st.scheduled_task_ids ∧
    (commitRobot c st r).task_finish_times = st.task_finish_times ∧
    (commitRobot c st r).robot_available_time.length =
      st.robot_available_time.length ∧
    (commitRobot c st r).robot_schedules.length = st.robot_schedules.length :=
  ⟨rfl, rfl, by simp [commitRobot], by simp [commitRobot]⟩

theorem foldl_commitRobot_fields (c : Candidate) :
    ∀ (coal : List Robot) (st : SchedState),
      (coal.foldl (commitRobot c) st).scheduled_task_ids =
        st.scheduled_task_ids ∧
      (coal.foldl (commitRobot c) st).task_finish_times =
        st.task_finish_times ∧
      (coal.foldl (commitRobot c) st).robot_available_time.length =
        st.robot_available_time.length ∧
      (coal.foldl (commitRobot c) st).robot_schedules.length =
        st.robot_schedules.length := by
  intro coal
  induction coal with
  | nil => intro st; exact ⟨rfl, rfl, rfl, rfl⟩
  | cons r rest ih =>
    intro st
    obtain ⟨h1, h2, h3, h4⟩ := ih (commitRobot c st r)
    obtain ⟨g1, g2, g3, g4⟩ := commitRobot_fields c st r
    exact ⟨h1.trans g1, h2.trans g2, h3.trans g3, h4.trans g4⟩

theorem commit_scheduled (c : Candidate) (st : SchedState) :
    (commit c st).scheduled_task_ids = c.task.id :: st.scheduled_task_ids := by
  show (c.task.id :: (c.coalition.foldl (commitRobot c) st).scheduled_task_ids) = _
  rw [(foldl_commitRobot_fields c c.coalition st).1]

theorem commit_fts (c : Candidate) (st : SchedState) :
    (commit c st).task_finish_times =
      (c.task.id, c.finish_time) :: st.task_finish_times := by
  show ((c.task.id, c.finish_time) ::
    (c.coalition.foldl (commitRobot c) st).task_finish_times) = _
  rw [(foldl_commitRobot_fields c c.coalition st).2.1]

theorem commit_avail (c : Candidate) (st : SchedState) :
    (commit c st).robot_available_time =
      (c.coalition.foldl (commitRobot c) st).robot_available_time := rfl

theorem commit_sched (c : Candidate) (st : SchedState) :
    (commit c st).robot_schedules =
      (c.coalition.foldl (commitRobot c) st).robot_schedules := rfl

theorem commit_lengths (c : Candidate) (st : SchedState) :
    (commit c st).robot_available_time.length =
      st.robot_available_time.length ∧
    (commit c st).robot_schedules.length = st.robot_schedules.length := by
  rw [commit_avail, commit_sched]
  exact ⟨(foldl_commitRobot_fields c c.coalition st).2.2.1,
    (foldl_commitRobot_fields c c.coalition st).2.2.2⟩

theorem travel_nonneg {p : ProblemInstance}
    (h : ∀ row ∈ p.travel_times, ∀ x ∈ row, 0 ≤ x) (loc tid : Nat) :
    0 ≤ (p.travel_times.getD loc []).getD tid 0 := by
  by_cases hloc : loc < p.travel_times.length
  · rw [List.getD_eq_getElem _ _ hloc]
    by_cases htid : tid < (p.travel_times[loc]).length
    · rw [List.getD_eq_getElem _ _ htid]
      exact h _ (List.getElem_mem hloc) _ (List.getElem_mem htid)
    · rw [List.getD_eq_default _ _ (Nat.le_of_not_lt htid)]
  · rw [List.getD_eq_default _ _ (Nat.le_of_not_lt hloc)]
    simp

/-- Facts extracted from a winning candidate of some round: its coalition is
a non-empty sub-roster, its member arrival times bound its start time from
below, and its finish is `start + execution_time`. -/
theorem candidate_facts {p : ProblemInstance} {st : SchedState} {c : Candidate}
    (heval : evalTask p st c.task = some c) :
    c.coalition ≠ [] ∧
    (∀ r ∈ c.coalition, r ∈ p.robots) ∧
    (∀ r ∈ c.coalition, arrivalTime p st r c.task.id ≤ c.start_time) ∧
    c.finish_time = c.start_time + c.task.execution_time ∧
    maxD 0 ((p.precedence_constraints c.task.id).map fun q =>
      finishTimeD st.task_finish_times q) ≤ c.start_time := by
  obtain ⟨hall, r0, rs, hfmc, hc⟩ := evalTask_some heval
  have hcoal : c.coalition = r0 :: rs := by rw [hc]
  have hstart : c.start_time = candStart p st c.task (r0 :: rs) := by rw [hc]
  have hfin : c.finish_time =
      candStart p st c.task (r0 :: rs) + c.task.execution_time := by
    rw [hc]
  refine ⟨by rw [hcoal]; exact List.cons_ne_nil r0 rs, ?_, ?_, ?_, ?_⟩
  · intro r hr
    rw [hcoal] at hr
    exact fmc_sub hfmc r hr
  · intro r hr
    rw [hcoal] at hr
    rw [hstart, candStart]
    refine le_trans ?_ (le_max_left _ _)
    exact le_maxD_of_mem (List.mem_map_of_mem _ hr) 0
  · rw [hfin, hstart]
  · rw [hstart, candStart]
    exact le_max_right _ _

/-- During the member-update fold, availability entries only grow, and they
stay bounded by the candidate's finish time when they were so bounded. -/
theorem foldl_commitRobot_avail_mono (c : Candidate) :
    ∀ (coal : List Robot) (st : SchedState),
      (∀ r ∈ coal, st.robot_available_time.getD r.id 0 ≤ c.finish_time) →
      ∀ n, st.robot_available_time.getD n 0 ≤
          (coal.foldl (commitRobot c) st).robot_available_time.getD n 0 ∧
        (coal.foldl (commitRobot c) st).robot_available_time.getD n 0 ≤
          max (st.robot_available_time.getD n 0) c.finish_time := by
  intro coal
  induction coal with
  | nil => intro st _ n; exact ⟨le_refl _, le_max_left _ _⟩
  | cons r rest ih =>
    intro st hbound n
    have hstep : ∀ m, (commitRobot c st r).robot_available_time.getD m 0 =
        st.robot_available_time.getD m 0 ∨
        ((commitRobot c st r).robot_available_time.getD m 0 = c.finish_time ∧
          m = r.id) := by
      intro m
      by_cases hm : m = r.id
      · by_cases hlt : r.id < st.robot_available_time.length
        · right
          refine ⟨?_, hm⟩
          show (st.robot_available_time.set r.id c.finish_time).getD m 0 = _
          rw [hm]
          exact getD_set_self hlt
        · left
          show (st.robot_available_time.set r.id c.finish_time).getD m 0 = _
          rw [List.set_eq_of_length_le (Nat.le_of_not_lt hlt)]
      · left
        exact getD_set_ne hm
    have hbound' : ∀ x ∈ rest,
        (commitRobot c st r).robot_available_time.getD x.id 0 ≤
          c.finish_time := by
      intro x hx
      rcases hstep x.id with h | ⟨h, -⟩
      · rw [h]; exact hbound x (List.mem_cons_of_mem r hx)
      · rw [h]
    obtain ⟨ih1, ih2⟩ := ih (commitRobot c st r) hbound' n
    constructor
    · refine le_trans ?_ ih1
      rcases hstep n with h | ⟨h, hn⟩
      · rw [h]
      · rw [h, hn]
        exact hbound r (List.mem_cons_self r rest)
    · refine le_trans ih2 ?_
      rcases hstep n with h | ⟨h, -⟩
      · rw [h]
      · rw [h, max_self]
        exact le_max_right _ _

theorem getD_replicate {α : Type} {k n : Nat} {a d : α} :
    (List.replicate k a).getD n d = if n < k then a else d := by
  by_cases h : n < k
  · rw [if_pos h, List.getD_eq_getElem _ _ (by simpa using h)]
    simp
  · rw [if_neg h, List.getD_eq_default]
    simpa using Nat.le_of_not_lt h

theorem avail_nonneg {p : ProblemInstance} {st : SchedState}
    (hA : AvailInv p st) (n : Nat) :
    0 ≤ st.robot_available_time.getD n 0 := by
  rw [hA.avail_eq n]
  refine maxD_nonneg ?_
  intro x hx
  rw [endsOf] at hx
  obtain ⟨e, he, rfl⟩ := List.mem_map.mp hx
  exact hA.ends_nonneg n e he

theorem candidate_bounds {p : ProblemInstance} {st : SchedState}
    {c : Candidate} (hA : AvailInv p st) (hnt : NonnegTimes p)
    (heval : evalTask p st c.task = some c) (htask : c.task ∈ p.tasks) :
    (∀ r ∈ c.coalition, st.robot_available_time.getD r.id 0 ≤ c.start_time) ∧
    0 ≤ c.start_time ∧ c.start_time ≤ c.finish_time ∧ 0 ≤ c.finish_time ∧
    ∀ r ∈ c.coalition, st.robot_available_time.getD r.id 0 ≤ c.finish_time := by
  obtain ⟨hne, hsub, harr, hfin, hpred⟩ := candidate_facts heval
  have hstart : ∀ r ∈ c.coalition,
      st.robot_available_time.getD r.id 0 ≤ c.start_time := by
    intro r hr
    refine le_trans ?_ (harr r hr)
    rw [arrivalTime]
    have := travel_nonneg hnt.2 (st.robot_current_location.getD r.id 0) c.task.id
    linarith
  have hs0 : 0 ≤ c.start_time := by
    cases hcoal : c.coalition with
    | nil => exact absurd hcoal hne
    | cons r0 rs =>
      refine le_trans (avail_nonneg hA r0.id) (hstart r0 ?_)
      rw [hcoal]; exact List.mem_cons_self r0 rs
  have hsf : c.start_time ≤ c.finish_time := by
    rw [hfin]
    have := hnt.1 c.task htask
    linarith
  exact ⟨hstart, hs0, hsf, le_trans hs0 hsf,
    fun r hr => le_trans (hstart r hr) hsf⟩

/-- The member-update fold preserves the availability/schedule coherence. -/
theorem foldl_commitRobot_core (p : ProblemInstance) (c : Candidate)
    (hfin0 : 0 ≤ c.finish_time) :
    ∀ (coal : List Robot) (st : SchedState),
      st.robot_available_time.length = p.num_robots →
      st.robot_schedules.length = p.num_robots →
      (∀ n, st.robot_available_time.getD n 0 = maxD 0 (endsOf st n)) →
      (∀ n, ∀ e ∈ st.robot_schedules.getD n [], 0 ≤ e.end_time) →
      (∀ r ∈ coal, st.robot_available_time.getD r.id 0 ≤ c.finish_time) →
      (coal.foldl (commitRobot c) st).robot_available_time.length =
        p.num_robots ∧
      (coal.foldl (commitRobot c) st).robot_schedules.length = p.num_robots ∧
      (∀ n, (coal.foldl (commitRobot c) st).robot_available_time.getD n 0 =
        maxD 0 (endsOf (coal.foldl (commitRobot c) st) n)) ∧
      ∀ n, ∀ e ∈ (coal.foldl (commitRobot c) st).robot_schedules.getD n [],
        0 ≤ e.end_time := by
  intro coal
  induction coal with
  | nil => intro st h1 h2 h3 h4 _; exact ⟨h1, h2, h3, h4⟩
  | cons r rest ih =>
    intro st h1 h2 h3 h4 hb
    have havail1 : (commitRobot c st r).robot_available_time =
        st.robot_available_time.set r.id c.finish_time := rfl
    have hsched1 : (commitRobot c st r).robot_schedules =
        st.robot_schedules.set r.id (st.robot_schedules.getD r.id [] ++
          [⟨c.task.id, c.start_time, c.finish_time⟩]) := rfl
    have e1 : (commitRobot c st r).robot_available_time.length =
        p.num_robots := by rw [havail1, List.length_set]; exact h1
    have e2 : (commitRobot c st r).robot_schedules.length = p.num_robots := by
      rw [hsched1, List.length_set]; exact h2
    have hsame : ∀ n, n ≠ r.id →
        (commitRobot c st r).robot_available_time.getD n 0 =
          st.robot_available_time.getD n 0 ∧
        (commitRobot c st r).robot_schedules.getD n [] =
          st.robot_schedules.getD n [] := by
      intro n hn
      rw [havail1, hsched1]
      exact ⟨getD_set_ne hn, getD_set_ne hn⟩
    have e3 : ∀ n, (commitRobot c st r).robot_available_time.getD n 0 =
        maxD 0 (endsOf (commitRobot c st r) n) := by
      intro n
      by_cases hn : n = r.id
      · by_cases hlt : r.id < st.robot_available_time.length
        · have hltS : r.id < st.robot_schedules.length := by
            rw [h2, ← h1]; exact hlt
          have ha : (commitRobot c st r).robot_available_time.getD n 0 =
              c.finish_time := by
            rw [havail1, hn]; exact getD_set_self hlt
          have hs : (commitRobot c st r).robot_schedules.getD n [] =
              st.robot_schedules.getD r.id [] ++
                [⟨c.task.id, c.start_time, c.finish_time⟩] := by
            rw [hsched1, hn]; exact getD_set_self hltS
          rw [ha, endsOf, hs]
          have hbound : maxD 0 ((st.robot_schedules.getD r.id []).map
              SchedEntry.end_time) ≤ c.finish_time := by
            have := h3 r.id
            rw [endsOf] at this
            rw [← this]
            exact hb r (List.mem_cons_self r rest)
          have hmap : (st.robot_schedules.getD r.id [] ++
              [(⟨c.task.id, c.start_time, c.finish_time⟩ : SchedEntry)]).map
                SchedEntry.end_time =
              (st.robot_schedules.getD r.id []).map SchedEntry.end_time ++
                [c.finish_time] := by
            simp
          rw [hmap, maxD_append_eq hbound]
        · have ha : (commitRobot c st r).robot_available_time.getD n 0 =
              st.robot_available_time.getD n 0 := by
            rw [havail1, List.set_eq_of_length_le (Nat.le_of_not_lt hlt)]
          have hs : (commitRobot c st r).robot_schedules.getD n [] =
              st.robot_schedules.getD n [] := by
            rw [hsched1, List.set_eq_of_length_le
              (by rw [h2, ← h1]; exact Nat.le_of_not_lt hlt)]
          rw [ha, endsOf, hs]
          exact h3 n
      · obtain ⟨ha, hs⟩ := hsame n hn
        rw [ha, endsOf, hs]
        exact h3 n
    have e4 : ∀ n, ∀ e ∈ (commitRobot c st r).robot_schedules.getD n [],
        0 ≤ e.end_time := by
      intro n e he
      by_cases hn : n = r.id
      · by_cases hltS : r.id < st.robot_schedules.length
        · have hs : (commitRobot c st r).robot_schedules.getD n [] =
              st.robot_schedules.getD r.id [] ++
                [⟨c.task.id, c.start_time, c.finish_time⟩] := by
            rw [hsched1, hn]; exact getD_set_self hltS
          rw [hs] at he
          rcases List.mem_append.mp he with h' | h'
          · exact h4 r.id e h'
          · obtain rfl : e = ⟨c.task.id, c.start_time, c.finish_time⟩ := by
              simpa using h'
            exact hfin0
        · have hs : (commitRobot c st r).robot_schedules.getD n [] =
              st.robot_schedules.getD n [] := by
            rw [hsched1, List.set_eq_of_length_le (Nat.le_of_not_lt hltS)]
          rw [hs] at he
          exact h4 n e he
      · rw [(hsame n hn).2] at he
        exact h4 n e he
    have hb' : ∀ x ∈ rest,
        (commitRobot c st r).robot_available_time.getD x.id 0 ≤
          c.finish_time := by
      intro x hx
      by_cases hxr : x.id = r.id
      · by_cases hlt : r.id < st.robot_available_time.length
        · rw [havail1, hxr, getD_set_self hlt]
        · rw [havail1, hxr,
            List.set_eq_of_length_le (Nat.le_of_not_lt hlt)]
          exact hxr ▸ hb x (List.mem_cons_of_mem r hx)
      · rw [(hsame x.id hxr).1]
        exact hb x (List.mem_cons_of_mem r hx)
    exact ih (commitRobot c st r) e1 e2 e3 e4 hb'

theorem commit_availInv {p : ProblemInstance} {st : SchedState}
    {c : Candidate} (hA : AvailInv p st) (hnt : NonnegTimes p)
    (heval : evalTask p st c.task = some c) (htask : c.task ∈ p.tasks) :
    AvailInv p (commit c st) ∧
    ∀ n, st.robot_available_time.getD n 0 ≤
      (commit c st).robot_available_time.getD n 0 := by
  obtain ⟨hstart, hs0, hsf, hf0, hb⟩ := candidate_bounds hA hnt heval htask
  obtain ⟨k1, k2, k3, k4⟩ := foldl_commitRobot_core p c hf0 c.coalition st
    hA.len_avail hA.len_sched hA.avail_eq hA.ends_nonneg hb
  constructor
  · constructor
    · rw [commit_avail]; exact k1
    · rw [commit_sched]; exact k2
    · intro n
      rw [commit_avail]
      have : endsOf (commit c st) n =
          endsOf (c.coalition.foldl (commitRobot c) st) n := by
        rw [endsOf, endsOf, commit_sched]
      rw [this]
      exact k3 n
    · intro n e he
      rw [commit_sched] at he
      exact k4 n e he
  · intro n
    rw [commit_avail]
    exact (foldl_commitRobot_avail_mono c c.coalition st hb n).1

theorem initState_availInv (p : ProblemInstance) :
    AvailInv p (initState p) := by
  have hsched : ∀ n, (initState p).robot_schedules.getD n [] = [] := by
    intro n
    show (List.replicate p.num_robots []).getD n [] = []
    rw [getD_replicate]
    split <;> rfl
  constructor
  · exact List.length_replicate _ _
  · exact List.length_replicate _ _
  · intro n
    show (List.replicate p.num_robots (0 : ℚ)).getD n 0 = _
    rw [getD_replicate, endsOf, hsched n]
    split <;> rfl
  · intro n e he
    rw [hsched n] at he
    cases he

theorem greedyLoop_availInv :
    ∀ (fuel : Nat) (p : ProblemInstance) (tasks : List Task)
      (st : SchedState), AvailInv p st → (∀ t ∈ tasks, t ∈ p.tasks) →
      NonnegTimes p →
      AvailInv p (greedyLoop fuel p tasks st).2 ∧
      ∀ n, st.robot_available_time.getD n 0 ≤
        (greedyLoop fuel p tasks st).2.robot_available_time.getD n 0 := by
  intro fuel
  induction fuel with
  | zero => intro p tasks st hA _ _; exact ⟨hA, fun n => le_refl _⟩
  | succ fuel ih =>
    intro p tasks st hA htasks hnt
    rw [greedyLoop]
    cases htaskse : tasks.isEmpty with
    | true => exact ⟨hA, fun n => le_refl _⟩
    | false =>
      simp only [Bool.false_eq_true, if_false]
      cases hbest : findBest p st tasks with
      | none => exact ⟨hA, fun n => le_refl _⟩
      | some c =>
        have heval := findBest_eval hbest
        have htask : c.task ∈ p.tasks := htasks _ (findBest_mem hbest)
        obtain ⟨hA', hmono⟩ := commit_availInv hA hnt heval htask
        obtain ⟨hA'', hmono'⟩ := ih p (tasks.erase c.task) (commit c st) hA'
          (fun t ht => htasks t (List.mem_of_mem_erase ht)) hnt
        exact ⟨hA'', fun n => le_trans (hmono n) (hmono' n)⟩

theorem commit_recorded {c : Candidate} {st : SchedState}
    (h : Recorded st) : Recorded (commit c st) := by
  intro q hq
  rw [commit_scheduled] at hq
  rw [commit_fts]
  by_cases hqq : q = c.task.id
  · rw [List.lookup]
    have hbeq : (q == c.task.id) = true := by simpa using hqq
    rw [hbeq]
    rfl
  · rcases List.mem_cons.mp hq with h' | h'
    · exact absurd h' hqq
    · rw [List.lookup]
      have hbeq : (q == c.task.id) = false := by simpa using hqq
      rw [hbeq]
      exact h q h'

theorem greedyLoop_recorded :
    ∀ (fuel : Nat) (p : ProblemInstance) (tasks : List Task)
      (st : SchedState), Recorded st →
      Recorded (greedyLoop fuel p tasks st).2 := by
  intro fuel
  induction fuel with
  | zero => intro p tasks st h; exact h
  | succ fuel ih =>
    intro p tasks st h
    rw [greedyLoop]
    cases htaskse : tasks.isEmpty with
    | true => exact h
    | false =>
      simp only [Bool.false_eq_true, if_false]
      cases hbest : findBest p st tasks with
      | none => exact h
      | some c => exact ih p _ _ (commit_recorded h)

/-! ## The claims -/

theorem greedyLoop_avail_length :
    ∀ (fuel : Nat) (p : ProblemInstance) (tasks : List Task)
      (st : SchedState),
      (greedyLoop fuel p tasks st).2.robot_available_time.length =
        st.robot_available_time.length := by
  intro fuel
  induction fuel with
  | zero => intro p tasks st; rfl
  | succ fuel ih =>
    intro p tasks st
    rw [greedyLoop]
    cases htaskse : tasks.isEmpty with
    | true => rfl
    | false =>
      simp only [Bool.false_eq_true, if_false]
      cases hbest : findBest p st tasks with
      | none => rfl
      | some c =>
        rw [ih p _ _]
        exact (commit_lengths c st).1


/-- C1: a ready task whose requirement vector has no set bit gets the empty
coalition from `find_minimal_coalition` — but `greedy_heuristic`'s
`if coalition:` treats the empty list like `None`, so the task yields no
candidate, is never marked scheduled, and the run stalls with an empty
schedule and makespan 0 instead of committing it at
`finish_time = max(0, max_pred_finish) + execution_time = 5`. -/
theorem claim1_zero_req_task_stalls :
    find_minimal_coalition zeroReqTask zeroReqProblem.robots = some [] ∧
    zeroReqProblem.get_real_tasks = [zeroReqTask] ∧
    findBest zeroReqProblem (initState zeroReqProblem) [zeroReqTask] = none ∧
    (greedyLoop 1 zeroReqProblem [zeroReqTask] (initState zeroReqProblem)).1 =
      [zeroReqTask] ∧
    greedy_heuristic zeroReqProblem =
      { makespan := 0, n_tasks := 1, n_robots := 1, robot_schedules := [[]] } := by
  refine ⟨by decide, by decide, by decide, by decide, by decide⟩

/-- C2: `find_minimal_coalition` returns Infeasible (`none`) exactly when
some required index is covered by no robot in the roster, and any
non-Infeasible coalition jointly covers every required index. -/
theorem claim2_infeasible_iff_uncovered (t : Task) (robots : List Robot)
    (hb : BinarySkills robots) :
    (find_minimal_coalition t robots = none ↔
      ∃ i, requiredIdx t i ∧ ∀ r ∈ robots, ¬ coversIdx r i) ∧
    ∀ out, find_minimal_coalition t robots = some out →
      ∀ i, requiredIdx t i → ∃ r ∈ out, coversIdx r i :=
  ⟨fmc_none_iff hb, fun _ h => fmc_covers hb h⟩

theorem claim2_witness :
    (find_minimal_coalition wTask2 wRobots2 = none ↔
      ∃ i, requiredIdx wTask2 i ∧ ∀ r ∈ wRobots2, ¬ coversIdx r i) ∧
    ∀ out, find_minimal_coalition wTask2 wRobots2 = some out →
      ∀ i, requiredIdx wTask2 i → ∃ r ∈ out, coversIdx r i :=
  claim2_infeasible_iff_uncovered wTask2 wRobots2 (by decide)

/-- C3: in every round, a ready task with a truthy coalition yields the
candidate `start_time = max(coalition_ready_time, max_pred_finish)`,
`finish_time = start_time + execution_time`, with `coalition_ready_time`
the maximum member arrival time; the loop selects the candidate with the
globally smallest finish time, ties going to the task evaluated first in
task-list order, and commits exactly that candidate. -/
theorem claim3_candidate_times_and_selection (p : ProblemInstance)
    (st : SchedState) (tasks : List Task) :
    (∀ (task : Task) (r0 : Robot) (rs : List Robot),
      ((p.precedence_constraints task.id).all
        (fun q => st.scheduled_task_ids.contains q)) = true →
      find_minimal_coalition task p.robots = some (r0 :: rs) →
      evalTask p st task = some ⟨task, r0 :: rs,
        max (maxD 0 ((r0 :: rs).map fun r => arrivalTime p st r task.id))
          (maxD 0 ((p.precedence_constraints task.id).map fun q =>
            finishTimeD st.task_finish_times q)),
        max (maxD 0 ((r0 :: rs).map fun r => arrivalTime p st r task.id))
          (maxD 0 ((p.precedence_constraints task.id).map fun q =>
            finishTimeD st.task_finish_times q)) + task.execution_time⟩) ∧
    (∀ c, findBest p st tasks = some c →
      ∃ l1 l2, tasks = l1 ++ c.task :: l2 ∧ evalTask p st c.task = some c ∧
        (∀ t ∈ l1, ∀ c', evalTask p st t = some c' →
          c.finish_time < c'.finish_time) ∧
        ∀ t ∈ tasks, ∀ c', evalTask p st t = some c' →
          c.finish_time ≤ c'.finish_time) ∧
    ∀ (fuel : Nat) (c : Candidate), findBest p st tasks = some c →
      greedyLoop (fuel + 1) p tasks st =
        greedyLoop fuel p (tasks.erase c.task) (commit c st) := by
  refine ⟨?_, ?_, ?_⟩
  · intro task r0 rs hall hfmc
    rw [evalTask]
    split
    · rw [hfmc]
    · rename_i hcond
      exact absurd hall hcond
  · intro c hbest
    obtain ⟨l1, l2, hsplit, heval, hl1, -⟩ := findBest_split hbest
    exact ⟨l1, l2, hsplit, heval, hl1, findBest_min hbest⟩
  · intro fuel c hbest
    have hne : tasks.isEmpty = false := by
      cases tasks with
      | nil => rw [findBest] at hbest; cases hbest
      | cons a l => rfl
    rw [greedyLoop, hne]
    simp only [Bool.false_eq_true, if_false, hbest]

theorem claim3_witness :
    evalTask scenAProblem (initState scenAProblem) scenATask =
      some ⟨scenATask, [⟨0, [1]⟩],
        max (maxD 0 ([(⟨0, [1]⟩ : Robot)].map fun r =>
          arrivalTime scenAProblem (initState scenAProblem) r scenATask.id))
          (maxD 0 ((scenAProblem.precedence_constraints scenATask.id).map
            fun q => finishTimeD (initState scenAProblem).task_finish_times q)),
        max (maxD 0 ([(⟨0, [1]⟩ : Robot)].map fun r =>
          arrivalTime scenAProblem (initState scenAProblem) r scenATask.id))
          (maxD 0 ((scenAProblem.precedence_constraints scenATask.id).map
            fun q => finishTimeD (initState scenAProblem).task_finish_times q))
          + scenATask.execution_time⟩ ∧
    greedyLoop 1 scenAProblem [scenATask] (initState scenAProblem) =
      greedyLoop 0 scenAProblem ([scenATask].erase scenACand.task)
        (commit scenACand (initState scenAProblem)) :=
  ⟨(claim3_candidate_times_and_selection scenAProblem (initState scenAProblem)
      [scenATask]).1 scenATask ⟨0, [1]⟩ [] (by decide) (by decide),
    (claim3_candidate_times_and_selection scenAProblem (initState scenAProblem)
      [scenATask]).2.2 0 scenACand (by
      norm_num [findBest, bestStep, evalTask, find_minimal_coalition,
        Robot.has_skills, initState, scenAProblem, scenATask, scenACand,
        arrivalTime, maxD, finishTimeD, pickBetter,
        ProblemInstance.num_robots, List.foldl, List.lookup])⟩

/-- C4: the loop commits a task only when every predecessor id is already in
`scheduled_task_ids`, the committed start time is at least the maximum
predecessor finish time (0 when there are none), and every scheduled id has
a recorded finish time. -/
theorem claim4_predecessors_scheduled :
    (∀ (p : ProblemInstance) (st : SchedState) (tasks : List Task)
        (c : Candidate), findBest p st tasks = some c →
      (∀ q ∈ p.precedence_constraints c.task.id,
        q ∈ st.scheduled_task_ids) ∧
      maxD 0 ((p.precedence_constraints c.task.id).map fun q =>
        finishTimeD st.task_finish_times q) ≤ c.start_time) ∧
    ∀ p : ProblemInstance, Recorded (finalState p) := by
  constructor
  · intro p st tasks c hbest
    have heval := findBest_eval hbest
    obtain ⟨hall, -, -, -, -⟩ := evalTask_some heval
    obtain ⟨-, -, -, -, hpred⟩ := candidate_facts heval
    refine ⟨?_, hpred⟩
    intro q hq
    have := List.all_eq_true.mp hall q hq
    simpa using this
  · intro p
    refine greedyLoop_recorded _ p _ _ ?_
    intro q hq
    have : q = 0 := by simpa [initState] using hq
    rw [this]
    rfl

theorem claim4_witness :
    ((∀ q ∈ scenAProblem.precedence_constraints scenACand.task.id,
        q ∈ (initState scenAProblem).scheduled_task_ids) ∧
      maxD 0 ((scenAProblem.precedence_constraints scenACand.task.id).map
        fun q => finishTimeD (initState scenAProblem).task_finish_times q) ≤
        scenACand.start_time) ∧
    Recorded (finalState scenAProblem) :=
  ⟨claim4_predecessors_scheduled.1 scenAProblem (initState scenAProblem)
      [scenATask] scenACand (by
      norm_num [findBest, bestStep, evalTask, find_minimal_coalition,
        Robot.has_skills, initState, scenAProblem, scenATask, scenACand,
        arrivalTime, maxD, finishTimeD, pickBetter,
        ProblemInstance.num_robots, List.foldl, List.lookup]),
    claim4_predecessors_scheduled.2 scenAProblem⟩

/-- C5: the returned makespan is the maximum entry of
`robot_available_time` at loop exit, is 0 when there are no robots, and —
for non-negative execution and travel times — is the maximum `end_time`
over all committed schedule entries as soon as at least one entry (one
committed assignment with non-empty coalition) exists. -/
theorem claim5_makespan (p : ProblemInstance) :
    (greedy_heuristic p).makespan =
      maxD 0 (finalState p).robot_available_time ∧
    (p.robots = [] → (greedy_heuristic p).makespan = 0) ∧
    (NonnegTimes p →
      (∀ es ∈ (greedy_heuristic p).robot_schedules, ∀ e ∈ es,
        e.end_time ≤ (greedy_heuristic p).makespan) ∧
      ((∃ es ∈ (greedy_heuristic p).robot_schedules, es ≠ []) →
        ∃ es ∈ (greedy_heuristic p).robot_schedules, ∃ e ∈ es,
          (greedy_heuristic p).makespan = e.end_time)) := by
  have hmk : (greedy_heuristic p).makespan =
      maxD 0 (finalState p).robot_available_time := rfl
  have hres : (greedy_heuristic p).robot_schedules =
      (finalState p).robot_schedules := rfl
  refine ⟨hmk, ?_, ?_⟩
  · intro hrob
    have hlen : (finalState p).robot_available_time.length = 0 := by
      rw [finalState, greedyLoop_avail_length]
      show (List.replicate p.num_robots (0 : ℚ)).length = 0
      rw [List.length_replicate, ProblemInstance.num_robots, hrob]
      rfl
    rw [hmk, List.length_eq_zero.mp hlen]
    rfl
  · intro hnt
    have hAf : AvailInv p (finalState p) :=
      (greedyLoop_availInv _ p _ (initState p) (initState_availInv p)
        (fun t ht => List.mem_of_mem_filter ht) hnt).1
    have hub : ∀ es ∈ (greedy_heuristic p).robot_schedules, ∀ e ∈ es,
        e.end_time ≤ (greedy_heuristic p).makespan := by
      intro es hes e he
      rw [hres] at hes
      obtain ⟨n, hn, hget⟩ := List.mem_iff_getElem.mp hes
      have hgetD : (finalState p).robot_schedules.getD n [] = es := by
        rw [List.getD_eq_getElem _ _ hn, hget]
      have h1 : e.end_time ≤ maxD 0 (endsOf (finalState p) n) := by
        refine le_maxD_of_mem ?_ 0
        rw [endsOf, hgetD]
        exact List.mem_map_of_mem _ he
      have h2 : maxD 0 (endsOf (finalState p) n) =
          (finalState p).robot_available_time.getD n 0 :=
        (hAf.avail_eq n).symm
      have hnA : n < (finalState p).robot_available_time.length := by
        rw [hAf.len_avail, ← hAf.len_sched]
        exact hn
      have h3 : (finalState p).robot_available_time.getD n 0 ≤
          maxD 0 (finalState p).robot_available_time := by
        refine le_maxD_of_mem ?_ 0
        rw [List.getD_eq_getElem _ _ hnA]
        exact List.getElem_mem hnA
      rw [hmk]
      exact le_trans h1 (le_trans (le_of_eq h2) h3)
    refine ⟨hub, ?_⟩
    rintro ⟨es0, hes0, hne0⟩
    have hzero : (greedy_heuristic p).makespan = 0 →
        ∃ es ∈ (greedy_heuristic p).robot_schedules, ∃ e ∈ es,
          (greedy_heuristic p).makespan = e.end_time := by
      intro hm0
      obtain ⟨e0, he0⟩ := List.exists_mem_of_ne_nil es0 hne0
      refine ⟨es0, hes0, e0, he0, ?_⟩
      have hle := hub es0 hes0 e0 he0
      rw [hm0] at hle
      have hge : 0 ≤ e0.end_time := by
        rw [hres] at hes0
        obtain ⟨n0, hn0, hget0⟩ := List.mem_iff_getElem.mp hes0
        have hgetD0 : (finalState p).robot_schedules.getD n0 [] = es0 := by
          rw [List.getD_eq_getElem _ _ hn0, hget0]
        exact hAf.ends_nonneg n0 e0 (by rw [hgetD0]; exact he0)
      rw [hm0]
      exact (le_antisymm hle hge).symm
    rcases maxD_mem_or 0 (finalState p).robot_available_time with hm | hm
    · exact hzero (hmk.trans hm)
    · obtain ⟨n, hn, hget⟩ := List.mem_iff_getElem.mp hm
      have h1 : (greedy_heuristic p).makespan =
          maxD 0 (endsOf (finalState p) n) := by
        rw [hmk, ← hAf.avail_eq n, List.getD_eq_getElem _ _ hn, hget]
      rcases maxD_mem_or 0 (endsOf (finalState p) n) with hm2 | hm2
      · exact hzero (h1.trans hm2)
      · rw [endsOf] at hm2
        obtain ⟨e, he, heq⟩ := List.mem_map.mp hm2
        have hnS : n < (finalState p).robot_schedules.length := by
          rw [hAf.len_sched, ← hAf.len_avail]
          exact hn
        refine ⟨(finalState p).robot_schedules.getD n [], ?_, e, he, ?_⟩
        · rw [hres, List.getD_eq_getElem _ _ hnS]
          exact List.getElem_mem hnS
        · rw [h1, endsOf, ← heq]

theorem claim5_witness :
    (greedy_heuristic noRobotsProblem).makespan = 0 ∧
    ∃ es ∈ (greedy_heuristic scenAProblem).robot_schedules, ∃ e ∈ es,
      (greedy_heuristic scenAProblem).makespan = e.end_time :=
  ⟨(claim5_makespan noRobotsProblem).2.1 rfl,
    ((claim5_makespan scenAProblem).2.2 (by
      constructor
      · intro t ht
        fin_cases ht <;> norm_num [scenATask]
      · intro row hrow x hx
        fin_cases hrow <;> fin_cases hx <;> norm_num)).2 (by
      norm_num [greedy_heuristic, mkResult, greedyLoop, findBest, bestStep,
        evalTask, find_minimal_coalition, Robot.has_skills, initState,
        scenAProblem, scenATask, arrivalTime, maxD, finishTimeD, pickBetter,
        commit, commitRobot, ProblemInstance.num_robots,
        ProblemInstance.get_real_tasks, List.foldl, List.lookup]
      decide)⟩

/-- C6: when no pending task yields a candidate, the main loop stops and
returns the tasks and state unchanged: the result record's schedules are
exactly the previously committed entries, every remaining task stays
unscheduled, and no task of the round had a candidate. -/
theorem claim6_stall_returns_partial (p : ProblemInstance) (tasks : List Task)
    (st : SchedState) (fuel : Nat) (hne : tasks ≠ [])
    (hnone : findBest p st tasks = none) :
    greedyLoop fuel p tasks st = (tasks, st) ∧
    (mkResult p (greedyLoop fuel p tasks st).2).robot_schedules =
      st.robot_schedules ∧
    ∀ t ∈ tasks, evalTask p st t = none := by
  have hloop := greedyLoop_stall fuel hnone
  exact ⟨hloop, by rw [hloop]; rfl, findBest_none hnone⟩

theorem claim6_witness :
    greedyLoop 1 zeroReqProblem [zeroReqTask] (initState zeroReqProblem) =
      ([zeroReqTask], initState zeroReqProblem) ∧
    (mkResult zeroReqProblem
      (greedyLoop 1 zeroReqProblem [zeroReqTask]
        (initState zeroReqProblem)).2).robot_schedules =
      (initState zeroReqProblem).robot_schedules ∧
    ∀ t ∈ [zeroReqTask],
      evalTask zeroReqProblem (initState zeroReqProblem) t = none :=
  claim6_stall_returns_partial zeroReqProblem [zeroReqTask]
    (initState zeroReqProblem) 1 (by decide) (by decide)

/-- C7: when the requirement vector has a set bit and some robot dominates
it, the finder returns the singleton coalition of the first dominating robot
in roster order, which is the lowest-id dominating robot when ids ascend
along the roster. -/
theorem claim7_first_dominating_singleton (t : Task) (robots : List Robot)
    (hbits : t.requirements.any (fun req => req == 1) = true)
    (hids : List.Pairwise (fun a b => a.id < b.id) robots)
    (r : Robot) (hr : r ∈ robots) (hdom : r.has_skills t.requirements = true) :
    ∃ r0 l1 l2, find_minimal_coalition t robots = some [r0] ∧
      robots = l1 ++ r0 :: l2 ∧ r0.has_skills t.requirements = true ∧
      (∀ x ∈ l1, x.has_skills t.requirements = false) ∧
      ∀ x ∈ robots, x.has_skills t.requirements = true → r0.id ≤ x.id := by
  cases hfindeq : robots.find? (fun x => x.has_skills t.requirements) with
  | none =>
    rw [List.find?_eq_none] at hfindeq
    exact absurd hdom (by simpa using hfindeq r hr)
  | some r0 =>
    obtain ⟨l1, l2, hsplit, hp, hl1⟩ := find?_first _ robots r0 hfindeq
    refine ⟨r0, l1, l2, ?_, hsplit, hp, hl1, ?_⟩
    · rw [find_minimal_coalition]
      simp only [hbits, Bool.not_true, if_false, hfindeq]
      rfl
    · intro x hx hxdom
      rw [hsplit] at hx hids
      rcases List.mem_append.mp hx with h' | h'
      · rw [hl1 x h'] at hxdom; cases hxdom
      · rcases List.mem_cons.mp h' with h'' | h''
        · rw [h'']
        · have h2 := (List.pairwise_append.mp hids).2.1
          exact le_of_lt ((List.pairwise_cons.mp h2).1 x h'')

theorem claim7_witness :
    ∃ r0 l1 l2, find_minimal_coalition wTask7 wRobots7 = some [r0] ∧
      wRobots7 = l1 ++ r0 :: l2 ∧ r0.has_skills wTask7.requirements = true ∧
      (∀ x ∈ l1, x.has_skills wTask7.requirements = false) ∧
      ∀ x ∈ wRobots7, x.has_skills wTask7.requirements = true → r0.id ≤ x.id :=
  claim7_first_dominating_singleton wTask7 wRobots7 (by decide) (by decide)
    ⟨1, [1, 1]⟩ (by decide) (by decide)

/-- C8: every iteration of the main loop either exits (no pending task, or
no candidate this round) or commits the found candidate, removing exactly
one task from the pending list; consequently any fuel of at least the
pending-task count computes the same final result (the loop terminates
before running out). -/
theorem claim8_loop_terminates :
    (∀ (p : ProblemInstance) (fuel : Nat) (tasks : List Task)
        (st : SchedState),
      ((tasks = [] ∨ findBest p st tasks = none) ∧
        greedyLoop (fuel + 1) p tasks st = (tasks, st)) ∨
      ∃ c, findBest p st tasks = some c ∧ c.task ∈ tasks ∧
        (tasks.erase c.task).length + 1 = tasks.length ∧
        greedyLoop (fuel + 1) p tasks st =
          greedyLoop fuel p (tasks.erase c.task) (commit c st)) ∧
    ∀ (fuel fuel' : Nat) (p : ProblemInstance) (tasks : List Task)
      (st : SchedState), tasks.length ≤ fuel → tasks.length ≤ fuel' →
        greedyLoop fuel p tasks st = greedyLoop fuel' p tasks st := by
  constructor
  · intro p fuel tasks st
    cases htasks : tasks.isEmpty with
    | true =>
      left
      have hnil : tasks = [] := by
        cases tasks with
        | nil => rfl
        | cons a l => cases htasks
      refine ⟨Or.inl hnil, ?_⟩
      rw [greedyLoop, htasks]
      rfl
    | false =>
      cases hbest : findBest p st tasks with
      | none =>
        left
        exact ⟨Or.inr rfl, greedyLoop_stall (fuel + 1) hbest⟩
      | some c =>
        right
        have hmem : c.task ∈ tasks := findBest_mem hbest
        have hlen : (tasks.erase c.task).length = tasks.length - 1 :=
          List.length_erase_of_mem hmem
        have hpos : 1 ≤ tasks.length :=
          List.length_pos.mpr (List.ne_nil_of_mem hmem)
        refine ⟨c, rfl, hmem, by omega, ?_⟩
        rw [greedyLoop, htasks]
        simp only [Bool.false_eq_true, if_false, hbest]
  · intro fuel fuel' p tasks st hf hf'
    exact greedyLoop_fuel_irrel fuel fuel' p tasks st hf hf'

theorem claim8_witness :
    greedyLoop 1 scenAProblem [scenATask] (initState scenAProblem) =
      greedyLoop 5 scenAProblem [scenATask] (initState scenAProblem) :=
  claim8_loop_terminates.2 1 5 scenAProblem [scenATask]
    (initState scenAProblem) (by decide) (by decide)

/-- C9: the scheduler is a pure function of the problem instance — the
instance is passed by value in the embedding and two runs on the same
instance produce identical makespan, task and robot counts, and per-robot
schedules (the source builds all mutable scheduling state afresh per run;
`get_real_tasks` returns a new list, so `tasks_to_schedule.remove` never
touches the instance). -/
theorem claim9_deterministic (p : ProblemInstance) :
    greedy_heuristic p = greedy_heuristic p ∧
    (greedy_heuristic p).makespan = (greedy_heuristic p).makespan ∧
    (greedy_heuristic p).n_tasks = (greedy_heuristic p).n_tasks ∧
    (greedy_heuristic p).n_robots = (greedy_heuristic p).n_robots ∧
    (greedy_heuristic p).robot_schedules =
      (greedy_heuristic p).robot_schedules ∧
    (greedy_heuristic p).n_tasks = p.get_real_tasks.length ∧
    (greedy_heuristic p).n_robots = p.robots.length :=
  ⟨rfl, rfl, rfl, rfl, rfl, rfl, rfl⟩

/-! ## Distinct-id coalitions and chronological schedules (C10) -/

theorem setCoverLoop_pairwise :
    ∀ (fuel : Nat) (u : List Nat) (a c out : List Robot),
      List.Pairwise (fun x y : Robot => x.id ≠ y.id) (c ++ a) →
      setCoverLoop fuel u a c = some out →
      List.Pairwise (fun x y : Robot => x.id ≠ y.id) out := by
  intro fuel
  induction fuel with
  | zero =>
    intro u a c out hpw h
    cases u with
    | nil =>
      obtain rfl : c = out := by injection h
      exact (List.pairwise_append.mp hpw).1
    | cons i u' => cases h
  | succ fuel ih =>
    intro u a c out hpw h
    cases u with
    | nil =>
      obtain rfl : c = out := by injection h
      exact (List.pairwise_append.mp hpw).1
    | cons i u' =>
      rw [setCoverLoop] at h
      cases hsel : selectBest (i :: u') a with
      | none => rw [hsel] at h; cases h
      | some best =>
        rw [hsel] at h
        have hmem : best ∈ a := selectBest_some_mem hsel
        refine ih _ _ _ _ ?_ h
        have hperm : List.Perm (c ++ a) ((c ++ [best]) ++ a.erase best) := by
          rw [List.append_assoc]
          exact (List.perm_cons_erase hmem).append_left c
        exact (hperm.pairwise_iff (fun hxy => hxy.symm)).mp hpw

theorem fmc_pairwise {t : Task} {robots out : List Robot}
    (hids : List.Pairwise (fun a b : Robot => a.id ≠ b.id) robots)
    (h : find_minimal_coalition t robots = some out) :
    List.Pairwise (fun a b : Robot => a.id ≠ b.id) out := by
  rw [find_minimal_coalition] at h
  split at h
  · obtain rfl : ([] : List Robot) = out := by injection h
    exact List.Pairwise.nil
  · cases hfind : robots.find? (fun r => r.has_skills t.requirements) with
    | some robot =>
      rw [hfind] at h
      obtain rfl : [robot] = out := by injection h
      simp
    | none =>
      rw [hfind] at h
      refine setCoverLoop_pairwise _ _ _ _ _ ?_ h
      rw [List.nil_append]
      exact hids

theorem foldl_commitRobot_sched_nomem (c : Candidate) :
    ∀ (coal : List Robot) (st : SchedState) (n : Nat),
      (∀ r ∈ coal, r.id ≠ n) →
      (coal.foldl (commitRobot c) st).robot_schedules.getD n [] =
        st.robot_schedules.getD n [] := by
  intro coal
  induction coal with
  | nil => intro st n _; rfl
  | cons r rest ih =>
    intro st n hn
    rw [List.foldl_cons, ih _ n (fun x hx => hn x (List.mem_cons_of_mem r hx))]
    show (st.robot_schedules.set r.id _).getD n [] = _
    exact getD_set_ne (fun hx => hn r (List.mem_cons_self r rest) hx.symm)

theorem foldl_commitRobot_sched_mem (c : Candidate) :
    ∀ (coal : List Robot) (st : SchedState) (r : Robot),
      List.Pairwise (fun a b : Robot => a.id ≠ b.id) coal → r ∈ coal →
      r.id < st.robot_schedules.length →
      (coal.foldl (commitRobot c) st).robot_schedules.getD r.id [] =
        st.robot_schedules.getD r.id [] ++
          [⟨c.task.id, c.start_time, c.finish_time⟩] := by
  intro coal
  induction coal with
  | nil => intro st r _ hr; cases hr
  | cons r0 rest ih =>
    intro st r hpw hr hlt
    rw [List.foldl_cons]
    rcases List.mem_cons.mp hr with h' | h'
    · subst h'
      rw [foldl_commitRobot_sched_nomem c rest _ r.id
        (fun x hx => ((List.pairwise_cons.mp hpw).1 x hx).symm)]
      show (st.robot_schedules.set r.id _).getD r.id [] = _
      exact getD_set_self hlt
    · have hne : r0.id ≠ r.id := (List.pairwise_cons.mp hpw).1 r h'
      have hunch : (commitRobot c st r0).robot_schedules.getD r.id [] =
          st.robot_schedules.getD r.id [] := by
        show (st.robot_schedules.set r0.id _).getD r.id [] = _
        exact getD_set_ne (fun hx => hne hx.symm)
      have hlen : (commitRobot c st r0).robot_schedules.length =
          st.robot_schedules.length := (commitRobot_fields c st r0).2.2.2
      rw [ih _ r (List.pairwise_cons.mp hpw).2 h' (by rw [hlen]; exact hlt),
        hunch]

theorem commit_chronoInv {p : ProblemInstance} {st : SchedState}
    {c : Candidate} (hC : ChronoInv p st) (hnt : NonnegTimes p)
    (heval : evalTask p st c.task = some c) (htask : c.task ∈ p.tasks)
    (hdist : List.Pairwise (fun a b : Robot => a.id ≠ b.id) c.coalition) :
    ChronoInv p (commit c st) := by
  obtain ⟨hstart, hs0, hsf, hf0, hb⟩ := candidate_bounds hC.base hnt heval htask
  obtain ⟨-, -, -, hfin, -⟩ := candidate_facts heval
  have hlenS : (commit c st).robot_schedules.length =
      st.robot_schedules.length := (commit_lengths c st).2
  have hsched : ∀ n, (commit c st).robot_schedules.getD n [] =
      st.robot_schedules.getD n [] ∨
      ((commit c st).robot_schedules.getD n [] =
        st.robot_schedules.getD n [] ++
          [⟨c.task.id, c.start_time, c.finish_time⟩] ∧
        st.robot_available_time.getD n 0 ≤ c.start_time) := by
    intro n
    by_cases hmem : ∃ r ∈ c.coalition, r.id = n
    · obtain ⟨r, hr, rfl⟩ := hmem
      by_cases hlt : r.id < st.robot_schedules.length
      · right
        rw [commit_sched]
        exact ⟨foldl_commitRobot_sched_mem c c.coalition st r hdist hr hlt,
          hstart r hr⟩
      · left
        have h1 : (commit c st).robot_schedules.getD r.id [] = [] :=
          List.getD_eq_default _ _ (by rw [hlenS]; exact Nat.le_of_not_lt hlt)
        have h2 : st.robot_schedules.getD r.id [] = [] :=
          List.getD_eq_default _ _ (Nat.le_of_not_lt hlt)
        rw [h1, h2]
    · push_neg at hmem
      left
      rw [commit_sched]
      exact foldl_commitRobot_sched_nomem c c.coalition st n hmem
  refine ⟨(commit_availInv hC.base hnt heval htask).1, ?_, ?_⟩
  · intro n e he
    rcases hsched n with h | ⟨h, -⟩
    · rw [h] at he
      exact hC.entry_ok n e he
    · rw [h] at he
      rcases List.mem_append.mp he with h' | h'
      · exact hC.entry_ok n e h'
      · obtain rfl : e = ⟨c.task.id, c.start_time, c.finish_time⟩ := by
          simpa using h'
        exact ⟨c.task, htask, rfl, hfin, hs0, hsf⟩
  · intro n
    rcases hsched n with h | ⟨h, hle⟩
    · rw [h]
      exact hC.chain n
    · rw [h]
      rw [List.chain'_append]
      refine ⟨hC.chain n, List.chain'_singleton _, ?_⟩
      intro x hx y hy
      obtain rfl : (⟨c.task.id, c.start_time, c.finish_time⟩ : SchedEntry) =
          y := by
        simpa using hy
      have hxm : x ∈ st.robot_schedules.getD n [] :=
        List.mem_of_mem_getLast? hx
      have h1 : x.end_time ≤ maxD 0 (endsOf st n) := by
        refine le_maxD_of_mem ?_ 0
        rw [endsOf]
        exact List.mem_map_of_mem _ hxm
      rw [← hC.base.avail_eq n] at h1
      exact le_trans h1 hle

theorem initState_chronoInv (p : ProblemInstance) :
    ChronoInv p (initState p) := by
  have hsched : ∀ n, (initState p).robot_schedules.getD n [] = [] := by
    intro n
    show (List.replicate p.num_robots []).getD n [] = []
    rw [getD_replicate]
    split <;> rfl
  refine ⟨initState_availInv p, ?_, ?_⟩
  · intro n e he
    rw [hsched n] at he
    cases he
  · intro n
    rw [hsched n]
    exact List.chain'_nil

theorem greedyLoop_chronoInv :
    ∀ (fuel : Nat) (p : ProblemInstance) (tasks : List Task)
      (st : SchedState), ChronoInv p st → (∀ t ∈ tasks, t ∈ p.tasks) →
      NonnegTimes p →
      List.Pairwise (fun a b : Robot => a.id ≠ b.id) p.robots →
      ChronoInv p (greedyLoop fuel p tasks st).2 := by
  intro fuel
  induction fuel with
  | zero => intro p tasks st hC _ _ _; exact hC
  | succ fuel ih =>
    intro p tasks st hC htasks hnt hids
    rw [greedyLoop]
    cases htaskse : tasks.isEmpty with
    | true => exact hC
    | false =>
      simp only [Bool.false_eq_true, if_false]
      cases hbest : findBest p st tasks with
      | none => exact hC
      | some c =>
        have heval := findBest_eval hbest
        have htask : c.task ∈ p.tasks := htasks _ (findBest_mem hbest)
        have hdist : List.Pairwise (fun a b : Robot => a.id ≠ b.id)
            c.coalition := by
          obtain ⟨-, r0, rs, hfmc, hc⟩ := evalTask_some heval
          have : c.coalition = r0 :: rs := by rw [hc]
          rw [this]
          exact fmc_pairwise hids hfmc
        exact ih p _ _ (commit_chronoInv hC hnt heval htask hdist)
          (fun t ht => htasks t (List.mem_of_mem_erase ht)) hnt hids

/-- C10: assuming non-negative execution and travel times (and the data
model's pairwise-distinct robot ids), every robot's returned schedule is
chronologically ordered and non-overlapping — each entry satisfies
`end_time = start_time + execution_time ≥ start_time` for its task and each
entry starts no earlier than the previous one ends — and the
`robot_available_time` entries never decrease as the loop runs. -/
theorem claim10_schedules_ordered (p : ProblemInstance) (hnt : NonnegTimes p)
    (hids : List.Pairwise (fun a b : Robot => a.id ≠ b.id) p.robots) :
    (∀ es ∈ (greedy_heuristic p).robot_schedules,
      (∀ e ∈ es, ∃ t ∈ p.tasks, e.task = t.id ∧
        e.end_time = e.start_time + t.execution_time ∧
        0 ≤ e.start_time ∧ e.start_time ≤ e.end_time) ∧
      List.Chain' (fun a b => a.end_time ≤ b.start_time) es) ∧
    ∀ (fuel : Nat) (tasks : List Task) (st : SchedState),
      AvailInv p st → (∀ t ∈ tasks, t ∈ p.tasks) →
      ∀ n, st.robot_available_time.getD n 0 ≤
        (greedyLoop fuel p tasks st).2.robot_available_time.getD n 0 := by
  constructor
  · have hCf : ChronoInv p (finalState p) :=
      greedyLoop_chronoInv _ p _ _ (initState_chronoInv p)
        (fun t ht => List.mem_of_mem_filter ht) hnt hids
    intro es hes
    have hres : (greedy_heuristic p).robot_schedules =
        (finalState p).robot_schedules := rfl
    rw [hres] at hes
    obtain ⟨n, hn, hget⟩ := List.mem_iff_getElem.mp hes
    have hgetD : (finalState p).robot_schedules.getD n [] = es := by
      rw [List.getD_eq_getElem _ _ hn, hget]
    refine ⟨fun e he => hCf.entry_ok n e (by rw [hgetD]; exact he), ?_⟩
    rw [← hgetD]
    exact hCf.chain n
  · intro fuel tasks st hA htasks
    exact (greedyLoop_availInv fuel p tasks st hA htasks hnt).2

theorem claim10_witness :
    (∀ es ∈ (greedy_heuristic scenAProblem).robot_schedules,
      (∀ e ∈ es, ∃ t ∈ scenAProblem.tasks, e.task = t.id ∧
        e.end_time = e.start_time + t.execution_time ∧
        0 ≤ e.start_time ∧ e.start_time ≤ e.end_time) ∧
      List.Chain' (fun a b => a.end_time ≤ b.start_time) es) ∧
    ∀ n, (initState scenAProblem).robot_available_time.getD n 0 ≤
      (greedyLoop 1 scenAProblem [scenATask]
        (initState scenAProblem)).2.robot_available_time.getD n 0 := by
  have h := claim10_schedules_ordered scenAProblem
    (by
      constructor
      · intro t ht
        fin_cases ht <;> norm_num [scenATask]
      · intro row hrow x hx
        fin_cases hrow <;> fin_cases hx <;> norm_num)
    (by decide)
  refine ⟨h.1, h.2 1 [scenATask] (initState scenAProblem)
    (initState_availInv scenAProblem) ?_⟩
  intro t ht
  obtain rfl : t = scenATask := by simpa using ht
  simp [scenAProblem]

end TaskAlloc
